import Mathlib

/-!
# go-sudoku3: a shallow embedding of the propagation engine

The three packages of the repository are embedded in the order of their
dependencies: `uint128` (the 128-bit container), `sudoku_constants` (the
geometry and alignment tables) and `sudoku_solver` (state, rules, driver).

Conventions of the embedding

* A `uint64` is a `Nat`; every operation that can leave the 64-bit range
  reduces modulo `2 ^ 64` explicitly.
* A Go string is its sequence of bytes (`List Nat`); `len` is the number of
  bytes.  The `range` loop of `Start_solver` visits every single-byte symbol
  at its own byte offset, and a multi-byte symbol is never in `'0'..'9'`.
* The global arrays of the solver (`locations`, `contents`, `unit_solved`)
  are total maps from indices; the code never indexes outside the arrays.
* A Go `panic` is an explicit outcome that carries the state of the globals
  at the moment of the panic.
* Loops whose termination is not structural carry a bound on the number of
  iterations; exhausting the bound is a separate outcome, and the theorems
  show that it is never produced.
-/

/-- The ways in which the program aborts: the three explicit `panic` calls
and the run-time check of a slice index. -/
inductive Panic where
  | puzzle_length
  | underflow
  | bisect_error
  | index_out_of_range
deriving DecidableEq, Repr

namespace uint128

/-- The word modulus `2 ^ 64`. -/
def W64 : Nat := 18446744073709551616

/-- Constant `math.MaxUint64`. -/
def MaxUint64 : Nat := 18446744073709551615

/-- An unsigned 128-bit number: `type Uint128 struct { Lo, Hi uint64 }`. -/
structure Uint128 where
  Lo : Nat
  Hi : Nat
deriving DecidableEq, Repr

/-- The zero value of the type. -/
def Zero : Uint128 := ⟨0, 0⟩

instance : Inhabited Uint128 := ⟨Zero⟩

/-- Go `bits.Sub64(x, y, borrow)`: the difference modulo `2 ^ 64` and the
borrow out. -/
def Sub64 (x y borrow : Nat) : Nat × Nat :=
  ((x + 2 * W64 - y - borrow) % W64, if x < y + borrow then 1 else 0)

/-- Go `bits.OnesCount64`: the number of one bits among the 64 of a word. -/
def OnesCount64 (x : Nat) : Nat :=
  ((List.range 64).filter (fun i => x.testBit i)).length

namespace Uint128

/-- `IsZero` returns true if `u == 0`. -/
def IsZero (u : Uint128) : Bool := decide (u = ⟨0, 0⟩)

/-- `Equals` returns true if `u == v`. -/
def Equals (u v : Uint128) : Bool := decide (u = v)

/-- `And` returns `u&v`. -/
def And (u v : Uint128) : Uint128 := ⟨u.Lo &&& v.Lo, u.Hi &&& v.Hi⟩

/-- `Or` returns `u|v`. -/
def Or (u v : Uint128) : Uint128 := ⟨u.Lo ||| v.Lo, u.Hi ||| v.Hi⟩

/-- `Xor` returns `u^v`. -/
def Xor (u v : Uint128) : Uint128 := ⟨u.Lo ^^^ v.Lo, u.Hi ^^^ v.Hi⟩

/-- `Sub` returns `u-v`, or `none` where the code panics with "underflow". -/
def Sub (u v : Uint128) : Option Uint128 :=
  let r1 := Sub64 u.Lo v.Lo 0
  let r2 := Sub64 u.Hi v.Hi r1.2
  if r2.2 ≠ 0 then none else some ⟨r1.1, r2.1⟩

/-- `Lsh` returns `u<<n`. -/
def Lsh (u : Uint128) (n : Nat) : Uint128 :=
  if n > 64 then
    ⟨0, (u.Lo <<< (n - 64)) % W64⟩
  else
    ⟨(u.Lo <<< n) % W64, ((u.Hi <<< n) % W64) ||| (u.Lo >>> (64 - n)) % W64⟩

/-- Bit `c` of the 128 bits: bit `c` of `Lo` below 64, bit `c - 64` of `Hi`
from 64 on. -/
def testBit (u : Uint128) (c : Nat) : Bool :=
  if c < 64 then u.Lo.testBit c else u.Hi.testBit (c - 64)

/-- `OnesCount` returns the number of one bits in `u`. -/
def OnesCount (u : Uint128) : Nat := OnesCount64 u.Hi + OnesCount64 u.Lo

/-- `Not` is the complement of the 128 bits. -/
def Not (u : Uint128) : Uint128 := ⟨u.Lo ^^^ MaxUint64, u.Hi ^^^ MaxUint64⟩

/-- `Less`: true if `u < v` as 128-bit magnitudes, false otherwise. -/
def Less (u v : Uint128) : Bool :=
  if u = v then false
  else if u.Hi < v.Hi ∨ (u.Hi = v.Hi ∧ u.Lo < v.Lo) then true
  else false

end Uint128

/-- `New` returns the value `(lo, hi)`. -/
def New (lo hi : Nat) : Uint128 := ⟨lo, hi⟩

/-- `From64` converts a word to a `Uint128`. -/
def From64 (v : Nat) : Uint128 := New v 0

end uint128

namespace sudoku_constants

open uint128

/-- The constant `Nine`. -/
def Nine : Nat := 9

/-- The package variable `ONE = uint128.From64(1)`. -/
def ONE : Uint128 := From64 1

/-- The record `Align`: a mask with its box `S` and its line `G`. -/
structure Align where
  Mask : Uint128
  S : Nat
  G : Nat
deriving DecidableEq, Repr

instance : Inhabited Align := ⟨⟨Zero, 0, 0⟩⟩

/-- The loop of `setup_powers`: store `temp`, then shift it left by one. -/
def setup_powers_loop : Nat → Uint128 → List Uint128
  | 0, _ => []
  | n + 1, temp => temp :: setup_powers_loop n (temp.Lsh 1)

/-- `setup_powers`: the 81 single-bit masks. -/
def setup_powers : List Uint128 := setup_powers_loop (Nine * Nine) (From64 1)

/-- The table `Powers`. -/
def Powers : List Uint128 := setup_powers

/-- `setup_unit_index`: box, row + 9 and column + 18 of every cell. -/
def setup_unit_index : List (List Nat) :=
  (List.range (Nine * Nine)).map fun cell =>
    let r := cell / 9
    let c := cell % 9
    let b := r / 3 * 3 + c / 3
    [b, r + 9, c + 18]

/-- The table `Unit_index`. -/
def Unit_index : List (List Nat) := setup_unit_index

/-- The pairs `(r, c)` in the order of the two nested loops over `0..8`. -/
def rc_pairs : List (Nat × Nat) :=
  (List.range Nine).flatMap fun r => (List.range Nine).map fun c => (r, c)

/-- The body of the inner loop of `setup_group_masks`. -/
def setup_group_masks_step (gm : List Uint128) (rc : Nat × Nat) : List Uint128 :=
  let r := rc.1
  let c := rc.2
  let indbox := ((r / 3 * 9 + r % 3) * 3) + (c / 3 * 9 + c % 3)
  let gm1 := gm.set r ((gm.getD r Zero).Or (Powers.getD indbox Zero))
  let gm2 := gm1.set (r + 9) ((gm1.getD (r + 9) Zero).Or (Powers.getD (r * 9 + c) Zero))
  gm2.set (r + 18) ((gm2.getD (r + 18) Zero).Or (Powers.getD (c * 9 + r) Zero))

/-- `setup_group_masks`: the 27 masks of boxes, rows and columns. -/
def setup_group_masks : List Uint128 :=
  rc_pairs.foldl setup_group_masks_step (List.replicate 27 Zero)

/-- The table `Group_masks`. -/
def Group_masks : List Uint128 := setup_group_masks

/-- `setup_neighbours`: union of the three groups of a cell, minus its own bit. -/
def setup_neighbours : List Uint128 :=
  (List.range (Nine * Nine)).map fun cell =>
    let value := Unit_index.getD cell []
    let b := value.getD 0 0
    let r := value.getD 1 0
    let c := value.getD 2 0
    (((Group_masks.getD r Zero).Or (Group_masks.getD c Zero)).Or
      (Group_masks.getD b Zero)).Xor (Powers.getD cell Zero)

/-- The table `Neighbours`. -/
def Neighbours : List Uint128 := setup_neighbours

/-- The body of `setup_alignments` for one box `b` and one line `rc`: skip an
empty intersection, otherwise fill the four entries at `count`. -/
def setup_alignments_step (acc : List Align × Nat) (brc : Nat × Nat) :
    Except Panic (List Align × Nat) :=
  let alignments := acc.1
  let count := acc.2
  let b := brc.1
  let rc := brc.2
  let mask := (Group_masks.getD b Zero).And (Group_masks.getD rc Zero)
  if mask.IsZero then .ok acc
  else if alignments.length < count + 4 then .error Panic.index_out_of_range
  else
    let original_mask := mask
    match mask.Sub ONE with
    | none => .error Panic.underflow
    | some m1 =>
      let b1 := mask.And m1.Not
      let mask := mask.And b1.Not
      match mask.Sub ONE with
      | none => .error Panic.underflow
      | some m2 =>
        let b2 := mask.And m2.Not
        let b3 := mask.And b2.Not
        let a0 := alignments.set count ⟨original_mask, b, rc⟩
        let a1 := a0.set (count + 1) ⟨b1.Or b2, b, rc⟩
        let a2 := a1.set (count + 2) ⟨b2.Or b3, b, rc⟩
        let a3 := a2.set (count + 3) ⟨b3.Or b1, b, rc⟩
        .ok (a3, count + 4)

/-- The pairs `(b, rc)` in the order of the nested loops of `setup_alignments`. -/
def brc_pairs : List (Nat × Nat) :=
  (List.range Nine).flatMap fun b => (List.range' Nine (Nine * 2)).map fun rc => (b, rc)

/-- A loop over a list whose body may abort. -/
def foldM_except {α β : Type} (f : β → α → Except Panic β) : List α → β → Except Panic β
  | [], acc => .ok acc
  | x :: xs, acc =>
    match f acc x with
    | .ok acc1 => foldM_except f xs acc1
    | .error e => .error e

/-- The first half of `setup_alignments`: the table of 216 entries. -/
def setup_alignments_table : Except Panic (List Align × Nat) :=
  foldM_except setup_alignments_step brc_pairs (List.replicate 216 ⟨Zero, 0, 0⟩, 0)

/-- The comparison `cmp_align_s_cmp`: box first, mask second. -/
def cmp_align_s_cmp (x y : Align) : Bool :=
  if x.S < y.S then true
  else if x.S > y.S then false
  else x.Mask.Less y.Mask

/-- The comparison `cmp_align_g_cmp`: line first, mask second. -/
def cmp_align_g_cmp (x y : Align) : Bool :=
  if x.G < y.G then true
  else if x.G > y.G then false
  else x.Mask.Less y.Mask

/-- Insert `a` into a sorted list behind every element that is not greater. -/
def insert_stable (less : Align → Align → Bool) (a : Align) : List Align → List Align
  | [] => [a]
  | b :: l => if less a b then a :: b :: l else b :: insert_stable less a l

/-- Go `sort.SliceStable`: a stable sort is determined by its comparison; it
is computed here by inserting the elements from left to right. -/
def SliceStable (less : Align → Align → Bool) (l : List Align) : List Align :=
  l.foldl (fun acc a => insert_stable less a acc) []

/-- The copy loops of `setup_alignments`: `outer` rows of `inner` entries. -/
def copy_buckets (alignments : List Align) (outer inner : Nat) : List (List Align) :=
  (List.range outer).map fun o =>
    (List.range inner).map fun i => alignments.getD (o * inner + i) ⟨Zero, 0, 0⟩

/-- `setup_alignments`: the two bucket tables, by box and by line. -/
def setup_alignments : Except Panic (List (List Align) × List (List Align)) :=
  match setup_alignments_table with
  | .error e => .error e
  | .ok (alignments, _) =>
    let by_s := SliceStable cmp_align_s_cmp alignments
    let bysqua := copy_buckets by_s 9 24
    let by_g := SliceStable cmp_align_g_cmp by_s
    let byline := copy_buckets by_g 18 12
    .ok (bysqua, byline)

/-- The table `Alignments_bysqua` (9 buckets of 24). -/
def Alignments_bysqua : List (List Align) :=
  match setup_alignments with
  | .ok t => t.1
  | .error _ => []

/-- The table `Alignments_byline` (18 buckets of 12). -/
def Alignments_byline : List (List Align) :=
  match setup_alignments with
  | .ok t => t.2
  | .error _ => []

end sudoku_constants

namespace sudoku_solver

open uint128 sudoku_constants

/-- The package variable `ONE = uint128.From64(1)`. -/
def ONE : Uint128 := From64 1

/-- The package variable `ALL_ONE = uint128.From64(1).Lsh(81).Sub(ONE)`. -/
def ALL_ONE : Uint128 :=
  match ((From64 1).Lsh 81).Sub ONE with
  | some u => u
  | none => Zero

/-- The dynamic package variables `locations`, `contents`, `unit_solved` and
`progress`. -/
structure State where
  locations : Nat → Uint128
  contents : Nat → Nat
  unit_solved : Nat → Nat → Bool
  progress : Bool

/-- The globals as `Setup_solver_once` leaves them: zero values. -/
def State.initial : State :=
  ⟨fun _ => Zero, fun _ => 0, fun _ _ => false, false⟩

/-- Assignment to one element of an array. -/
def upd {α : Type} (f : Nat → α) (i : Nat) (v : α) : Nat → α :=
  fun j => if j = i then v else f j

/-- The outcome of a stateful call: a normal return with the globals, a panic
with the globals at that moment, or an exhausted iteration bound. -/
inductive Res (α : Type) where
  | ok (a : α) (s : State)
  | panic (p : Panic) (s : State)
  | fuel

/-- The pointer table `p_all_powers`, read through its pointers. -/
def p_all_powers : List Uint128 := Powers

/-- The pointer table `p_Alignments_bysqua`, read through its pointers. -/
def p_Alignments_bysqua : List (List Uint128) :=
  Alignments_bysqua.map fun bucket => bucket.map fun a => a.Mask

/-- The pointer table `p_Alignments_byline`, read through its pointers. -/
def p_Alignments_byline : List (List Uint128) :=
  Alignments_byline.map fun bucket => bucket.map fun a => a.Mask

/-- The `for low <= high` loop of `bisect`; `none` when the bound on the
number of iterations is exhausted. -/
def bisect_loop (mask : Uint128) (all_masks : List Uint128) : Nat → Int → Int → Option Int
  | 0, _, _ => none
  | n + 1, low, high =>
    if low ≤ high then
      let mid := (low + high) >>> (1 : Nat)
      let ptr := all_masks.getD mid.toNat Zero
      if mask.Equals ptr then some mid
      else if mask.Less ptr then bisect_loop mask all_masks n low (mid - 1)
      else bisect_loop mask all_masks n (mid + 1) high
    else some (-1)

/-- `bisect`: bisect `all_masks` and find the match point, `-1` if none. -/
def bisect (mask : Uint128) (all_masks : List Uint128) : Option Int :=
  bisect_loop mask all_masks (all_masks.length + 1) 0 ((all_masks.length : Int) - 1)

/-- `count_content`: the number of solved cells. -/
def count_content (s : State) : Nat :=
  ((List.range (Nine * Nine)).filter fun cell => s.contents cell > 0).length

/-- The loop of `place` over the digits: clear the bit of the cell from the
other digits, and the neighbours of the cell from the digit itself. -/
def place_locations (digit cell : Nat) (not_bit : Uint128) (locations : Nat → Uint128) :
    Nat → Uint128 :=
  (List.range' 1 Nine).foldl (fun locs d =>
    if d ≠ digit then upd locs d ((locs d).And not_bit)
    else upd locs d ((locs d).And (Neighbours.getD cell Zero).Not)) locations

/-- `place`: put `digit` into `cell`. -/
def place (digit cell : Nat) (bit : Uint128) (s : State) : State :=
  let not_bit := bit.Not
  let value := Unit_index.getD cell []
  let us0 := s.unit_solved
  let us1 := upd us0 digit (upd (us0 digit) (value.getD 0 0) true)
  let us2 := upd us1 digit (upd (us1 digit) (value.getD 1 0) true)
  let us3 := upd us2 digit (upd (us2 digit) (value.getD 2 0) true)
  { locations := place_locations digit cell not_bit s.locations
    contents := upd s.contents cell digit
    unit_solved := us3
    progress := true }

/-- `unplace`: remove candidates from the puzzle. -/
def unplace (digit : Nat) (mask : Uint128) (s : State) : State :=
  if !((s.locations digit).And mask).IsZero then
    { s with locations := upd s.locations digit ((s.locations digit).And mask.Not)
             progress := true }
  else s

/-- A loop over a list of indices whose body may panic. -/
def forM_loop {α : Type} (f : α → State → Res Unit) : List α → State → Res Unit
  | [], s => .ok () s
  | x :: xs, s =>
    match f x s with
    | .ok _ s1 => forM_loop f xs s1
    | .panic p s1 => .panic p s1
    | .fuel => .fuel

/-- The pairs `(d, g)` with `d` in `1..9` and `g` in `lo..lo+n-1`, in the order
of the nested loops. -/
def dg_pairs (lo n : Nat) : List (Nat × Nat) :=
  (List.range' 1 Nine).flatMap fun d => (List.range' lo n).map fun g => (d, g)

/-- The body of the inner loop of `locate` for digit `d` and group `g`. -/
def locate_body (dg : Nat × Nat) (s : State) : Res Unit :=
  let d := dg.1
  let g := dg.2
  if s.unit_solved d g then .ok () s
  else
    let mask := (s.locations d).And (Group_masks.getD g Zero)
    match mask.Sub ONE with
    | none => .panic Panic.underflow s
    | some m1 =>
      if !(mask.And m1).IsZero then .ok () s
      else
        match bisect mask p_all_powers with
        | none => .fuel
        | some cell =>
          if cell < 0 then .panic Panic.bisect_error s
          else .ok () (place d cell.toNat mask s)

/-- `locate`: find digits which only live in one place in a group. -/
def locate (s : State) : Res Bool :=
  match forM_loop locate_body (dg_pairs 0 (Nine * 3)) { s with progress := false } with
  | .ok _ s1 => .ok s1.progress s1
  | .panic p s1 => .panic p s1
  | .fuel => .fuel

/-- The inner loop of `single` over the digits: the count of digits that still
carry the bit and the last of them, stopping once the count exceeds one. -/
def single_count (locations : Nat → Uint128) (bit : Uint128) : List Nat → Nat × Nat → Nat × Nat
  | [], acc => acc
  | d :: ds, (count, dd) =>
    if !((locations d).And bit).IsZero then
      if count + 1 > 1 then (count + 1, d)
      else single_count locations bit ds (count + 1, d)
    else single_count locations bit ds (count, dd)

/-- The body of the loop of `single` for one cell.  The variable `dd` is read
only when `count == 1`, that is after it was assigned for this cell. -/
def single_body (cell : Nat) (s : State) : Res Unit :=
  if s.contents cell ≠ 0 then .ok () s
  else
    let bit := Powers.getD cell Zero
    let r := single_count s.locations bit (List.range' 1 Nine) (0, 0)
    if r.1 = 1 then .ok () (place r.2 cell bit s)
    else .ok () s

/-- `single`: find cells which have one candidate left. -/
def single (s : State) : Res Bool :=
  match forM_loop single_body (List.range (Nine * Nine)) { s with progress := false } with
  | .ok _ s1 => .ok s1.progress s1
  | .panic p s1 => .panic p s1
  | .fuel => .fuel

/-- The body of the first loop of `align` (rows and columns). -/
def align_line_body (dg : Nat × Nat) (s : State) : Res Unit :=
  let d := dg.1
  let g := dg.2
  if s.unit_solved d g then .ok () s
  else
    let mask := (s.locations d).And (Group_masks.getD g Zero)
    match bisect mask (p_Alignments_byline.getD (g - 9) []) with
    | none => .fuel
    | some c =>
      if c < 0 then .ok () s
      else
        let sm := ((Alignments_byline.getD (g - 9) []).getD c.toNat ⟨Zero, 0, 0⟩).S
        let m := ((Group_masks.getD sm Zero).And (s.locations d)).And mask.Not
        if m.IsZero then .ok () s
        else .ok () (unplace d m s)

/-- The body of the second loop of `align` (boxes). -/
def align_box_body (ds : Nat × Nat) (s : State) : Res Unit :=
  let d := ds.1
  let sq := ds.2
  if s.unit_solved d sq then .ok () s
  else
    let mask := (s.locations d).And (Group_masks.getD sq Zero)
    match bisect mask (p_Alignments_bysqua.getD sq []) with
    | none => .fuel
    | some c =>
      if c < 0 then .ok () s
      else
        let sm := ((Alignments_bysqua.getD sq []).getD c.toNat ⟨Zero, 0, 0⟩).G
        let m := ((Group_masks.getD sm Zero).And (s.locations d)).And mask.Not
        if m.IsZero then .ok () s
        else .ok () (unplace d m s)

/-- `align`: check for candidates which live only in one row or column of a
box, or in one box of a row or column. -/
def align (s : State) : Res Bool :=
  match forM_loop align_line_body (dg_pairs Nine (Nine * 2)) { s with progress := false } with
  | .panic p s1 => .panic p s1
  | .fuel => .fuel
  | .ok _ s1 =>
    match forM_loop align_box_body (dg_pairs 0 Nine) s1 with
    | .ok _ s2 => .ok s2.progress s2
    | .panic p s2 => .panic p s2
    | .fuel => .fuel

/-- The loop of `Solve` over the three solver functions: call them in
sequence and leave the loop at the first that succeeds. -/
def Solve_pass (s : State) : Res Bool :=
  match locate s with
  | .panic p s1 => .panic p s1
  | .fuel => .fuel
  | .ok true s1 => .ok true s1
  | .ok false s1 =>
    match single s1 with
    | .panic p s2 => .panic p s2
    | .fuel => .fuel
    | .ok true s2 => .ok true s2
    | .ok false s2 => align s2

/-- The `for progress` loop of `Solve`, with a bound on the number of its
iterations. -/
def Solve_loop : Nat → State → Res Nat
  | 0, _ => .fuel
  | n + 1, s =>
    if s.progress then
      let count := count_content s
      if count = 81 then .ok count s
      else
        match Solve_pass s with
        | .ok _ s1 => Solve_loop n s1
        | .panic p s1 => .panic p s1
        | .fuel => .fuel
    else .ok (count_content s) s

/-- The bound on the iterations of the loop of `Solve`: a pass that reports
progress fixes one of 81 cells or clears one of 9 * 81 candidate bits, and
one more pass reports no progress. -/
def pass_bound : Nat := 81 + 9 * 81 + 2

/-- `Solve`: call the solver functions in sequence; if one succeeds, restart
from the beginning. -/
def Solve (s : State) : Res Nat :=
  Solve_loop pass_bound { s with progress := true }

/-- The three reset loops at the head of `Start_solver`. -/
def reset (s : State) : State :=
  { locations := fun d => if 1 ≤ d ∧ d ≤ Nine then ALL_ONE else s.locations d
    contents := fun cell => if cell < Nine * Nine then 0 else s.contents cell
    unit_solved := fun d g =>
      if 1 ≤ d ∧ d ≤ Nine ∧ g < Nine * 3 then false else s.unit_solved d g
    progress := s.progress }

/-- The loop of `Start_solver` over the symbols of the puzzle, from byte
offset `cell` on. -/
def load : List Nat → Nat → State → State
  | [], _, s => s
  | char :: rest, cell, s =>
    if 48 ≤ char ∧ char ≤ 57 then
      load rest (cell + 1) (place (char - 48) cell (Powers.getD cell Zero) s)
    else load rest (cell + 1) s

/-- `Start_solver`: reset the globals, load the known places from the puzzle,
solve, and return the number of solved cells. -/
def Start_solver (puzzle : List Nat) (s : State) : Res Nat :=
  let s1 := reset s
  if puzzle.length < 81 then .panic Panic.puzzle_length s1
  else
    let puzzle := puzzle.take 81
    let s2 := load puzzle 0 s1
    match Solve s2 with
    | .ok _ s3 => .ok (count_content s3) s3
    | .panic p s3 => .panic p s3
    | .fuel => .fuel

/-- The value a call returned, if it returned. -/
def Res.value? {α : Type} : Res α → Option α
  | .ok a _ => some a
  | _ => none

/-- The panic a call raised, if it raised one. -/
def Res.panicked? {α : Type} : Res α → Option Panic
  | .panic p _ => some p
  | _ => none

/-- The globals a call left behind, on return and on panic. -/
def Res.state? {α : Type} : Res α → Option State
  | .ok _ s => some s
  | .panic _ s => some s
  | .fuel => none

/-- The bytes of a string of single-byte symbols. -/
def ascii (s : String) : List Nat := s.toList.map Char.toNat

/-- A mask that fits the 81 cells: no bit from 81 on. -/
def Small (u : Uint128) : Prop := u.Lo < 2 ^ 64 ∧ u.Hi < 2 ^ 17

/-- The test of the code for "mask `u` carries the bit of cell `c`":
`!u.And(Powers[c]).IsZero()`. -/
def hasBit (u : Uint128) (c : Nat) : Bool := !(u.And (Powers.getD c Zero)).IsZero

/-- Cell `c` belongs to group `g`: its bit is set in `Group_masks[g]`. -/
def in_group (g c : Nat) : Bool := hasBit (Group_masks.getD g Zero) c

/-- The cells of group `g`, ascending. -/
def group_cells (g : Nat) : List Nat := (List.range 81).filter (in_group g)

/-- Cell `c2` is a neighbour of cell `c`: its bit is set in `Neighbours[c]`. -/
def is_neighbour (c c2 : Nat) : Bool := hasBit (Neighbours.getD c Zero) c2

/-- The digits `1..9`. -/
def digits : List Nat := List.range' 1 9

/-- A complete valid grid: each of the 27 groups holds `1..9` exactly once. -/
def ValidGrid (grid : Nat → Nat) : Prop :=
  ∀ g < 27, ((group_cells g).map grid).Perm digits

instance (grid : Nat → Nat) : Decidable (ValidGrid grid) := by
  unfold ValidGrid
  infer_instance

/-- The total candidate-bit count over the nine digits. -/
def candidate_count (s : State) : Nat :=
  (digits.map fun d => (s.locations d).OnesCount).sum

/-- The number of undetermined cells. -/
def undetermined_count (s : State) : Nat :=
  ((List.range 81).filter fun c => s.contents c = 0).length

/-- A step of `locate` that changes the state: digit `d` has the single
candidate cell `c` in the unflagged group `g` and is placed there. -/
def Hidden (s s1 : State) : Prop :=
  ∃ d g c, 1 ≤ d ∧ d ≤ 9 ∧ g < 27 ∧ c < 81 ∧ s.unit_solved d g = false ∧
    (s.locations d).And (Group_masks.getD g Zero) = Powers.getD c Zero ∧
    s1 = place d c (Powers.getD c Zero) s

/-- A step of `single` that changes the state: the undetermined cell `c` has
the single candidate digit `d`, which is placed there. -/
def Naked (s s1 : State) : Prop :=
  ∃ d c, 1 ≤ d ∧ d ≤ 9 ∧ c < 81 ∧ s.contents c = 0 ∧
    (∀ d2, 1 ≤ d2 → d2 ≤ 9 → (hasBit (s.locations d2) c = true ↔ d2 = d)) ∧
    s1 = place d c (Powers.getD c Zero) s

/-- A step of `align` that changes the state: the candidates of digit `d` in
group `g1` all lie in group `g2`, and the candidates of `d` in `g2` outside
`g1`, of which there are some, are removed. -/
def Pointing (s s1 : State) : Prop :=
  ∃ d g1 g2, 1 ≤ d ∧ d ≤ 9 ∧ g1 < 27 ∧ g2 < 27 ∧
    ((s.locations d).And (Group_masks.getD g1 Zero)).And (Group_masks.getD g2 Zero) =
      (s.locations d).And (Group_masks.getD g1 Zero) ∧
    (((Group_masks.getD g2 Zero).And (s.locations d)).And
      ((s.locations d).And (Group_masks.getD g1 Zero)).Not).IsZero = false ∧
    s1 = unplace d (((Group_masks.getD g2 Zero).And (s.locations d)).And
      ((s.locations d).And (Group_masks.getD g1 Zero)).Not) s

/-- Cell `c2` is another cell that shares a box, a row or a column with `c`. -/
def shares_group (c c2 : Nat) : Prop :=
  c2 ≠ c ∧ ∃ g, g < 27 ∧ in_group g c = true ∧ in_group g c2 = true

/-- Group `i` (0: box, 1: row, 2: column) of cell `c`, from `Unit_index`. -/
def unit_of (c i : Nat) : Nat := (Unit_index.getD c []).getD i 0

/-- The invariant of the solver state between two steps.
`excl`: a fixed cell is no candidate place of another digit.
`nbr`: the neighbours of a fixed cell are no candidate places of its digit.
`flag`: the three groups of a fixed cell are flagged for its digit.
`solved`: a flagged digit has at most one candidate cell in the group.
`digit`: the contents are digits. -/
structure Inv (s : State) : Prop where
  excl : ∀ c, c < 81 → s.contents c ≠ 0 → ∀ d, 1 ≤ d → d ≤ 9 → d ≠ s.contents c →
    hasBit (s.locations d) c = false
  nbr : ∀ c, c < 81 → s.contents c ≠ 0 → ∀ c2, c2 < 81 → is_neighbour c c2 = true →
    hasBit (s.locations (s.contents c)) c2 = false
  flag : ∀ c, c < 81 → s.contents c ≠ 0 → ∀ i, i < 3 →
    s.unit_solved (s.contents c) (unit_of c i) = true
  solved : ∀ d, 1 ≤ d → d ≤ 9 → ∀ g, g < 27 → s.unit_solved d g = true →
    ∃ c, c < 81 ∧ ∀ c2, c2 < 81 → c2 ≠ c → in_group g c2 = true →
      hasBit (s.locations d) c2 = false
  digit : ∀ c, c < 81 → s.contents c ≤ 9

/-- The progress of a step or of several steps: the invariant holds again,
the progress flag is set, fixed cells keep their digit, neither count grows,
and either a cell was fixed or a candidate bit was cleared. -/
structure Advance (s s1 : State) : Prop where
  inv : Inv s1
  prog : s1.progress = true
  keep : ∀ c, c < 81 → s.contents c ≠ 0 → s1.contents c = s.contents c
  und : undetermined_count s1 ≤ undetermined_count s
  cand : candidate_count s1 ≤ candidate_count s
  strict : (∃ c, c < 81 ∧ s.contents c = 0 ∧ s1.contents c ≠ 0 ∧
      undetermined_count s1 < undetermined_count s) ∨
    candidate_count s1 < candidate_count s

/-- No operation sets a candidate bit: every mask of `s1` is a subset of the
mask of `s`. -/
def Shrinks (s s1 : State) : Prop :=
  ∀ d, (s1.locations d).And (s.locations d) = s1.locations d

/-- One step of the engine as the proofs see it: a step of one of the three
rules, or an assignment to the progress flag. -/
def Step (s s1 : State) : Prop :=
  Hidden s s1 ∨ Naked s s1 ∨ Pointing s s1 ∨ ∃ b, s1 = { s with progress := b }

/-- A state in which each of the three rules reports no progress and changes
nothing. -/
def Quiescent (s : State) : Prop :=
  locate s = .ok false s ∧ single s = .ok false s ∧ align s = .ok false s

/-- The states of a run of `Start_solver` on `puzzle` from the globals `s0`:
the state after the loading phase, the state on entry of the loop of `Solve`,
and the state after every call of `locate`, `single` or `align`. -/
inductive Reachable (puzzle : List Nat) (s0 : State) : State → Prop where
  | loaded : Reachable puzzle s0 (load (puzzle.take 81) 0 (reset s0))
  | entry (s : State) : Reachable puzzle s0 s → Reachable puzzle s0 { s with progress := true }
  | locate (s s1 : State) (b : Bool) :
      Reachable puzzle s0 s → locate s = .ok b s1 → Reachable puzzle s0 s1
  | single (s s1 : State) (b : Bool) :
      Reachable puzzle s0 s → single s = .ok b s1 → Reachable puzzle s0 s1
  | align (s s1 : State) (b : Bool) :
      Reachable puzzle s0 s → align s = .ok b s1 → Reachable puzzle s0 s1

/-- The digit that `puzzle` gives for cell `c`: the symbols `'1'..'9'` give
`1..9`, every other symbol gives no digit (`0`). -/
def given (puzzle : List Nat) (c : Nat) : Nat :=
  match puzzle.get? c with
  | some ch => if 49 ≤ ch ∧ ch ≤ 57 then ch - 48 else 0
  | none => 0

/-- The grid and the state agree: the digit of the grid is still a candidate
at every cell, and every fixed cell holds the digit of the grid. -/
def Consistent (grid : Nat → Nat) (s : State) : Prop :=
  (∀ c, c < 81 → hasBit (s.locations (grid c)) c = true) ∧
  (∀ c, c < 81 → s.contents c ≠ 0 → s.contents c = grid c)

/-- No two neighbouring cells are fixed to the same digit. -/
def NoConflict (s : State) : Prop :=
  ∀ c, c < 81 → ∀ c2, c2 < 81 → is_neighbour c c2 = true → s.contents c ≠ 0 →
    s.contents c2 ≠ s.contents c

/-- Mask `u` is a subset of mask `v`: and-ing with `v` keeps all of `u`. -/
def SubsetOf (u v : Uint128) : Prop := u.And v = u

end sudoku_solver

open uint128 sudoku_constants

namespace sudoku_solver

/-- A state in which `locate` aborts: some digit has no candidate cell left
in a group that is not flagged for it. -/
def Stuck (s : State) : Prop :=
  ∃ d g, 1 ≤ d ∧ d ≤ 9 ∧ g < 27 ∧ s.unit_solved d g = false ∧
    (s.locations d).And (Group_masks.getD g uint128.Zero) = uint128.Zero

/-- A puzzle that the three rules solve, blanks written `.`. -/
def puzzle_easy : List Nat :=
  ascii "..3.2.6..9..3.5..1..18.64....81.29..7.......8..67.82....26.95..8..2.3..9..5.1.3.."

/-- The solution of `puzzle_easy` as a string of 81 digits. -/
def solution_easy : List Nat :=
  ascii "483921657967345821251876493548132976729564138136798245372689514814253769695417382"

/-- The solution of `puzzle_easy` as a grid. -/
def grid_easy : Nat → Nat := fun c => solution_easy.getD c 0 - 48

/-- The state that a returned call left, and `s` if the call did not return
or ran out of its bound. -/
def Res.stateD {α : Type} (r : Res α) (s : State) : State :=
  match r with
  | .ok _ s1 => s1
  | .panic _ s1 => s1
  | .fuel => s

end sudoku_solver

open uint128 sudoku_constants sudoku_solver

namespace uint128

theorem land_two_pow_eq_zero_iff (x c : Nat) : x &&& 2 ^ c = 0 ↔ x.testBit c = false := by
  constructor
  · intro h
    have := congrArg (fun n => Nat.testBit n c) h
    simpa [Nat.testBit_two_pow_self] using this
  · intro h
    apply Nat.eq_of_testBit_eq
    intro i
    simp only [Nat.testBit_and, Nat.testBit_two_pow, Nat.zero_testBit]
    by_cases hi : c = i
    · subst hi; simp [h]
    · simp [hi]

/-- A non-zero word that has no bit in common with its predecessor is a power
of two. -/
theorem eq_two_pow_of_land_pred (n : Nat) (hn : n ≠ 0) (h : n &&& (n - 1) = 0) :
    ∃ k, n = 2 ^ k := by
  induction n using Nat.strong_induction_on with
  | _ n ih =>
    rcases Nat.even_or_odd' n with ⟨m, rfl | rfl⟩
    · have hm : m ≠ 0 := by omega
      have h2 : m &&& (m - 1) = 0 := by
        apply Nat.eq_of_testBit_eq
        intro i
        have := congrArg (fun x => Nat.testBit x (i + 1)) h
        simp only [Nat.testBit_and, Nat.zero_testBit] at this ⊢
        rw [Nat.testBit_succ, Nat.testBit_succ] at this
        have e1 : 2 * m / 2 = m := by omega
        have e2 : (2 * m - 1) / 2 = m - 1 := by omega
        rw [e1, e2] at this
        exact this
      obtain ⟨k, hk⟩ := ih m (by omega) hm h2
      exact ⟨k + 1, by rw [hk]; ring⟩
    · have h2 : m = 0 := by
        apply Nat.eq_of_testBit_eq
        intro i
        have := congrArg (fun x => Nat.testBit x (i + 1)) h
        simp only [Nat.testBit_and, Nat.zero_testBit] at this ⊢
        rw [Nat.testBit_succ, Nat.testBit_succ] at this
        have e1 : (2 * m + 1) / 2 = m := by omega
        have e2 : (2 * m + 1 - 1) / 2 = m := by omega
        rw [e1, e2] at this
        simpa using this
      exact ⟨0, by subst h2; rfl⟩

end uint128

open uint128 sudoku_constants sudoku_solver

namespace uint128

theorem Uint128.eq_iff (u v : Uint128) : u = v ↔ u.Lo = v.Lo ∧ u.Hi = v.Hi := by
  cases u; cases v; simp

theorem Uint128.IsZero_iff (u : Uint128) : u.IsZero = true ↔ u.Lo = 0 ∧ u.Hi = 0 := by
  simp [Uint128.IsZero, Uint128.eq_iff]

theorem Uint128.testBit_And (u v : Uint128) (c : Nat) :
    (u.And v).testBit c = (u.testBit c && v.testBit c) := by
  unfold Uint128.testBit Uint128.And
  split <;> simp

theorem testBit_MaxUint64 (i : Nat) (h : i < 64) : Nat.testBit MaxUint64 i = true := by
  have e : MaxUint64 = 2 ^ 64 - 1 := by decide
  rw [e, Nat.testBit_two_pow_sub_one]
  simp [h]

theorem Uint128.testBit_Not (u : Uint128) (c : Nat) (hc : c < 128) :
    u.Not.testBit c = !u.testBit c := by
  unfold Uint128.testBit Uint128.Not
  split
  · rename_i h
    rw [Nat.testBit_xor, testBit_MaxUint64 c h]
    cases u.Lo.testBit c <;> rfl
  · have h2 : c - 64 < 64 := by omega
    rw [Nat.testBit_xor, testBit_MaxUint64 _ h2]
    cases u.Hi.testBit (c - 64) <;> rfl

theorem Uint128.And_assoc (u v w : Uint128) : (u.And v).And w = u.And (v.And w) := by
  simp [Uint128.And, Nat.land_assoc]

theorem Uint128.And_comm (u v : Uint128) : u.And v = v.And u := by
  simp [Uint128.And, Nat.land_comm]

theorem Uint128.And_self (u : Uint128) : u.And u = u := by
  simp [Uint128.And]

/-- The mask with the single bit `k`. -/
theorem Uint128.Sub_ONE_eq_none (u : Uint128) :
    u.Sub sudoku_solver.ONE = none ↔ u.Lo = 0 ∧ u.Hi = 0 := by
  simp only [Uint128.Sub, sudoku_solver.ONE, From64, New, Sub64]
  by_cases h1 : u.Lo < 1 + 0
  · simp only [h1, if_true]
    by_cases h2 : u.Hi < 0 + 1
    · simp only [h2, if_true]; simp; omega
    · simp only [h2, if_false]; simp; omega
  · simp only [h1, if_false]
    simp; omega

theorem Uint128.single_bit_of_test (u m1 : Uint128) (hlo : u.Lo < 2 ^ 64) (hhi : u.Hi < 2 ^ 64)
    (hs : u.Sub sudoku_solver.ONE = some m1) (hz : (u.And m1).IsZero = true) :
    (∃ k, k < 64 ∧ u = ⟨2 ^ k, 0⟩) ∨ (∃ k, k < 64 ∧ u = ⟨0, 2 ^ k⟩) := by
  have hW : W64 = 2 ^ 64 := by decide
  simp only [Uint128.Sub, sudoku_solver.ONE, From64, New, Sub64] at hs
  rw [Uint128.IsZero_iff] at hz
  by_cases h1 : u.Lo < 1 + 0
  · have hl0 : u.Lo = 0 := by omega
    simp only [h1, if_true] at hs
    by_cases h2 : u.Hi < 0 + 1
    · simp [h2] at hs
    · simp only [h2, if_false] at hs
      simp only [ne_eq, not_true_eq_false, if_false, Option.some.injEq] at hs
      subst hs
      simp only [Uint128.And] at hz
      have e : (u.Hi + 2 * W64 - 0 - 1) % W64 = u.Hi - 1 := by
        rw [hW]; omega
      rw [e] at hz
      obtain ⟨k, hk⟩ := eq_two_pow_of_land_pred u.Hi (by omega) hz.2
      right
      refine ⟨k, ?_, ?_⟩
      · by_contra hk64
        have : 2 ^ 64 ≤ 2 ^ k := Nat.pow_le_pow_right (by decide) (by omega)
        omega
      · rw [Uint128.eq_iff]; exact ⟨hl0, hk⟩
  · simp only [h1, if_false] at hs
    have h2 : ¬ (u.Hi < 0 + 0) := by omega
    simp only [h2, if_false] at hs
    simp only [ne_eq, not_true_eq_false, if_false, Option.some.injEq] at hs
    subst hs
    simp only [Uint128.And] at hz
    have e : (u.Lo + 2 * W64 - 1 - 0) % W64 = u.Lo - 1 := by
      rw [hW]; omega
    have e2 : (u.Hi + 2 * W64 - 0 - 0) % W64 = u.Hi := by
      rw [hW]; omega
    rw [e, e2, Nat.and_self] at hz
    obtain ⟨k, hk⟩ := eq_two_pow_of_land_pred u.Lo (by omega) hz.1
    left
    refine ⟨k, ?_, ?_⟩
    · by_contra hk64
      have : 2 ^ 64 ≤ 2 ^ k := Nat.pow_le_pow_right (by decide) (by omega)
      omega
    · rw [Uint128.eq_iff]; exact ⟨hk, hz.2⟩

end uint128

open uint128 sudoku_constants sudoku_solver

namespace sudoku_solver

set_option maxRecDepth 100000 in
theorem Powers_getD_table : ∀ c < 81, Powers.getD c uint128.Zero =
    if c < 64 then ⟨2 ^ c, 0⟩ else ⟨0, 2 ^ (c - 64)⟩ := by decide!

theorem Powers_getD_lo (c : Nat) (h : c < 64) : Powers.getD c uint128.Zero = ⟨2 ^ c, 0⟩ := by
  rw [Powers_getD_table c (by omega)]; simp [h]

theorem Powers_getD_hi (c : Nat) (h1 : 64 ≤ c) (h2 : c < 81) :
    Powers.getD c uint128.Zero = ⟨0, 2 ^ (c - 64)⟩ := by
  rw [Powers_getD_table c h2]; simp; omega

theorem Powers_length : Powers.length = 81 := by decide

theorem Powers_getD_ge (c : Nat) (h : 81 ≤ c) : Powers.getD c uint128.Zero = uint128.Zero := by
  rw [List.getD_eq_default]
  rw [Powers_length]; exact h

theorem testBit_Powers (c i : Nat) (h : c < 81) :
    (Powers.getD c uint128.Zero).testBit i = decide (i = c) := by
  by_cases hc : c < 64
  · rw [Powers_getD_lo c hc]
    unfold Uint128.testBit
    split
    · simp only [Nat.testBit_two_pow]
      by_cases e : c = i
      · simp [e]
      · have : ¬ i = c := fun h => e h.symm
        simp [e, this]
    · have : ¬ i = c := by omega
      simp [this]
  · rw [Powers_getD_hi c (by omega) h]
    unfold Uint128.testBit
    split
    · have : ¬ i = c := by omega
      simp [this]
    · simp only [Nat.testBit_two_pow]
      by_cases e : c - 64 = i - 64
      · have : i = c := by omega
        simp [e, this]
      · have : ¬ i = c := by omega
        simp [e, this]

end sudoku_solver

namespace sudoku_solver

theorem hasBit_eq_testBit (u : Uint128) (c : Nat) (h : c < 81) : hasBit u c = u.testBit c := by
  unfold hasBit
  by_cases hc : c < 64
  · rw [Powers_getD_lo c hc]
    have : ((u.And ⟨2 ^ c, 0⟩).IsZero = true) ↔ u.Lo.testBit c = false := by
      rw [Uint128.IsZero_iff]
      simp only [Uint128.And, Nat.and_zero, and_true]
      exact land_two_pow_eq_zero_iff _ _
    unfold Uint128.testBit
    simp only [hc, if_true]
    cases hb : u.Lo.testBit c
    · simp [this.2 hb]
    · cases hz : (u.And ⟨2 ^ c, 0⟩).IsZero
      · rfl
      · rw [this.1 hz] at hb; cases hb
  · rw [Powers_getD_hi c (by omega) h]
    have : ((u.And ⟨0, 2 ^ (c - 64)⟩).IsZero = true) ↔ u.Hi.testBit (c - 64) = false := by
      rw [Uint128.IsZero_iff]
      simp only [Uint128.And, Nat.and_zero, true_and]
      exact land_two_pow_eq_zero_iff _ _
    unfold Uint128.testBit
    simp only [hc, if_false]
    cases hb : u.Hi.testBit (c - 64)
    · simp [this.2 hb]
    · cases hz : (u.And ⟨0, 2 ^ (c - 64)⟩).IsZero
      · rfl
      · rw [this.1 hz] at hb; cases hb

theorem hasBit_ge (u : Uint128) (c : Nat) (h : 81 ≤ c) : hasBit u c = false := by
  unfold hasBit
  rw [Powers_getD_ge c h]
  simp [Uint128.And, Uint128.IsZero, uint128.Zero]

end sudoku_solver

namespace sudoku_solver

theorem Small_And_right (u v : Uint128) (h : Small v) : Small (u.And v) := by
  unfold Small at *
  simp only [Uint128.And]
  exact ⟨Nat.and_lt_two_pow _ h.1, Nat.and_lt_two_pow _ h.2⟩

theorem Small_And_left (u v : Uint128) (h : Small u) : Small (u.And v) := by
  rw [Uint128.And_comm]; exact Small_And_right _ _ h

theorem Small_testBit_ge (u : Uint128) (h : Small u) (c : Nat) (hc : 81 ≤ c) :
    u.testBit c = false := by
  unfold Uint128.testBit
  have h64 : ¬ c < 64 := by omega
  simp only [h64, if_false]
  apply Nat.testBit_lt_two_pow
  calc u.Hi < 2 ^ 17 := h.2
    _ ≤ 2 ^ (c - 64) := Nat.pow_le_pow_right (by decide) (by omega)

/-- Two masks within the 81 cells that agree on every cell are equal. -/
theorem Small_ext (u v : Uint128) (hu : Small u) (hv : Small v)
    (h : ∀ c < 81, u.testBit c = v.testBit c) : u = v := by
  rw [Uint128.eq_iff]
  constructor
  · apply Nat.eq_of_testBit_eq
    intro i
    by_cases hi : i < 64
    · have := h i (by omega)
      unfold Uint128.testBit at this
      simpa [hi] using this
    · have p64 : (2:Nat) ^ 64 ≤ 2 ^ i := Nat.pow_le_pow_right (by decide) (by omega)
      rw [Nat.testBit_lt_two_pow (lt_of_lt_of_le hu.1 p64),
        Nat.testBit_lt_two_pow (lt_of_lt_of_le hv.1 p64)]
  · apply Nat.eq_of_testBit_eq
    intro i
    by_cases hi : i < 17
    · have := h (i + 64) (by omega)
      unfold Uint128.testBit at this
      have h64 : ¬ (i + 64 < 64) := by omega
      simpa [h64] using this
    · have p17 : (2:Nat) ^ 17 ≤ 2 ^ i := Nat.pow_le_pow_right (by decide) (by omega)
      rw [Nat.testBit_lt_two_pow (lt_of_lt_of_le hu.2 p17),
        Nat.testBit_lt_two_pow (lt_of_lt_of_le hv.2 p17)]

theorem Small_Zero : Small uint128.Zero := by
  unfold Small uint128.Zero; simp

theorem Small_IsZero_iff (u : Uint128) (hu : Small u) :
    u.IsZero = true ↔ ∀ c < 81, u.testBit c = false := by
  constructor
  · intro h c _
    rw [Uint128.IsZero_iff] at h
    unfold Uint128.testBit
    rw [h.1, h.2]; simp
  · intro h
    have : u = uint128.Zero := by
      apply Small_ext u uint128.Zero hu Small_Zero
      intro c hc
      rw [h c hc]
      unfold Uint128.testBit uint128.Zero; simp
    rw [this]; rfl

set_option maxRecDepth 100000 in
theorem Group_masks_small_table : ∀ g < 27,
    (Group_masks.getD g uint128.Zero).Lo < 2 ^ 64 ∧ (Group_masks.getD g uint128.Zero).Hi < 2 ^ 17 := by decide!

set_option maxRecDepth 100000 in
theorem Group_masks_length : Group_masks.length = 27 := by decide!

theorem Group_masks_small (g : Nat) : Small (Group_masks.getD g uint128.Zero) := by
  by_cases h : g < 27
  · exact Group_masks_small_table g h
  · rw [List.getD_eq_default _ _ (by rw [Group_masks_length]; omega)]
    exact Small_Zero

set_option maxRecDepth 100000 in
theorem Powers_small_table : ∀ c < 81,
    (Powers.getD c uint128.Zero).Lo < 2 ^ 64 ∧ (Powers.getD c uint128.Zero).Hi < 2 ^ 17 := by decide!

theorem Powers_small (c : Nat) : Small (Powers.getD c uint128.Zero) := by
  by_cases h : c < 81
  · exact Powers_small_table c h
  · rw [Powers_getD_ge c (by omega)]
    exact Small_Zero

end sudoku_solver

open uint128 sudoku_constants sudoku_solver

namespace uint128

theorem Uint128.Less_iff (u v : Uint128) :
    u.Less v = true ↔ (u.Hi < v.Hi ∨ (u.Hi = v.Hi ∧ u.Lo < v.Lo)) := by
  unfold Uint128.Less
  by_cases h : u = v
  · subst h; simp
  · by_cases h2 : u.Hi < v.Hi ∨ (u.Hi = v.Hi ∧ u.Lo < v.Lo)
    · simp [h, h2]
    · simp only [h, h2, if_false]; simp

theorem Uint128.Less_irrefl (u : Uint128) : u.Less u = false := by
  simp [Uint128.Less]

theorem Uint128.Less_trans (u v w : Uint128) (h1 : u.Less v = true) (h2 : v.Less w = true) :
    u.Less w = true := by
  rw [Uint128.Less_iff] at *
  omega

theorem Uint128.Less_asymm (u v : Uint128) (h1 : u.Less v = true) : v.Less u = false := by
  cases h : v.Less u
  · rfl
  · rw [Uint128.Less_iff] at *
    omega

theorem Uint128.Less_total (u v : Uint128) (h1 : u.Less v = false) (h2 : u ≠ v) :
    v.Less u = true := by
  have h1' : ¬ (u.Less v = true) := by simp [h1]
  rw [Uint128.Less_iff] at *
  have : ¬ (u.Lo = v.Lo ∧ u.Hi = v.Hi) := by
    rw [← Uint128.eq_iff]; exact h2
  omega

theorem Uint128.Equals_iff (u v : Uint128) : u.Equals v = true ↔ u = v := by
  simp [Uint128.Equals]

end uint128

namespace sudoku_solver

theorem shiftRight_one (x : Int) : x >>> (1 : Nat) = x / 2 := by
  rw [Int.shiftRight_eq_div_pow]; rfl

/-- The loop of `bisect` returns within its bound, and a result that is not
`-1` is an index between `low` and `high` that holds the mask. -/
theorem bisect_loop_some (mask : Uint128) (tbl : List Uint128) :
    ∀ (n : Nat) (low high : Int), 0 ≤ low → (high - low + 1).toNat < n →
      ∃ r, bisect_loop mask tbl n low high = some r ∧
        (r = -1 ∨ (low ≤ r ∧ r ≤ high ∧ tbl.getD r.toNat uint128.Zero = mask)) := by
  intro n
  induction n with
  | zero => intro low high _ h; omega
  | succ n ih =>
    intro low high hlow hfuel
    unfold bisect_loop
    by_cases hle : low ≤ high
    · simp only [hle, if_true]
      rw [shiftRight_one]
      have hm1 : low ≤ (low + high) / 2 := by omega
      have hm2 : (low + high) / 2 ≤ high := by omega
      by_cases he : mask.Equals (tbl.getD ((low + high) / 2).toNat uint128.Zero) = true
      · simp only [he, if_true]
        refine ⟨_, rfl, Or.inr ⟨hm1, hm2, ?_⟩⟩
        exact ((Uint128.Equals_iff _ _).1 he).symm
      · simp only [he, if_false]
        by_cases hl : mask.Less (tbl.getD ((low + high) / 2).toNat uint128.Zero) = true
        · simp only [hl, if_true]
          obtain ⟨r, hr, hres⟩ := ih low ((low + high) / 2 - 1) hlow (by omega)
          refine ⟨r, hr, ?_⟩
          rcases hres with h | ⟨h1, h2, h3⟩
          · exact Or.inl h
          · exact Or.inr ⟨h1, by omega, h3⟩
        · simp only [hl, if_false]
          obtain ⟨r, hr, hres⟩ := ih ((low + high) / 2 + 1) high (by omega) (by omega)
          refine ⟨r, hr, ?_⟩
          rcases hres with h | ⟨h1, h2, h3⟩
          · exact Or.inl h
          · exact Or.inr ⟨by omega, h2, h3⟩
    · simp only [hle, if_false]
      exact ⟨-1, rfl, Or.inl rfl⟩

/-- `bisect` always returns, and a non-negative result is an index of the
table that holds the mask. -/
theorem bisect_some (mask : Uint128) (tbl : List Uint128) :
    ∃ r, bisect mask tbl = some r ∧
      (r = -1 ∨ (0 ≤ r ∧ r.toNat < tbl.length ∧ tbl.getD r.toNat uint128.Zero = mask)) := by
  unfold bisect
  obtain ⟨r, hr, hres⟩ := bisect_loop_some mask tbl (tbl.length + 1) 0
    ((tbl.length : Int) - 1) (le_refl _) (by omega)
  refine ⟨r, hr, ?_⟩
  rcases hres with h | ⟨h1, h2, h3⟩
  · exact Or.inl h
  · exact Or.inr ⟨h1, by omega, h3⟩

/-- In a strictly ascending table the entries at two indices compare as the
indices do. -/
theorem getD_Less_of_lt (tbl : List Uint128)
    (hs : tbl.Pairwise (fun a b => a.Less b = true)) (i j : Nat) (hij : i < j)
    (hj : j < tbl.length) :
    (tbl.getD i uint128.Zero).Less (tbl.getD j uint128.Zero) = true := by
  have hi : i < tbl.length := by omega
  rw [List.getD_eq_getElem _ _ hi, List.getD_eq_getElem _ _ hj]
  exact List.pairwise_iff_getElem.1 hs i j hi hj hij

theorem bisect_loop_found (mask : Uint128) (tbl : List Uint128)
    (hs : tbl.Pairwise (fun a b => a.Less b = true)) (i : Nat) (hi : i < tbl.length)
    (hmask : tbl.getD i uint128.Zero = mask) :
    ∀ (n : Nat) (low high : Int), 0 ≤ low → high < tbl.length → low ≤ i → (i : Int) ≤ high →
      (high - low + 1).toNat < n → bisect_loop mask tbl n low high = some (i : Int) := by
  intro n
  induction n with
  | zero => intro low high _ _ _ _ h; omega
  | succ n ih =>
    intro low high hlow hhigh hli hih hfuel
    unfold bisect_loop
    have hle : low ≤ high := by omega
    simp only [hle, if_true]
    rw [shiftRight_one]
    have hm1 : low ≤ (low + high) / 2 := by omega
    have hm2 : (low + high) / 2 ≤ high := by omega
    obtain ⟨m, hm⟩ : ∃ m : Nat, (low + high) / 2 = (m : Int) := ⟨((low + high) / 2).toNat, by omega⟩
    rw [hm] at hm1 hm2 ⊢
    simp only [Int.toNat_ofNat]
    have hmlen : m < tbl.length := by omega
    by_cases he : mask.Equals (tbl.getD m uint128.Zero) = true
    · simp only [he, if_true]
      have e := (Uint128.Equals_iff _ _).1 he
      rcases Nat.lt_trichotomy m i with h | h | h
      · have := getD_Less_of_lt tbl hs m i h hi
        rw [hmask, ← e, Uint128.Less_irrefl] at this; cases this
      · rw [h]
      · have := getD_Less_of_lt tbl hs i m h hmlen
        rw [hmask, ← e, Uint128.Less_irrefl] at this; cases this
    · simp only [he, if_false]
      have hne : m ≠ i := by
        intro h; apply he; rw [Uint128.Equals_iff, h, hmask]
      by_cases hl : mask.Less (tbl.getD m uint128.Zero) = true
      · simp only [hl, if_true]
        apply ih low (m - 1) hlow (by omega) hli _ (by omega)
        rcases Nat.lt_or_gt_of_ne hne with h | h
        · have := getD_Less_of_lt tbl hs m i h hi
          rw [hmask] at this
          rw [Uint128.Less_asymm _ _ this] at hl; cases hl
        · omega
      · simp only [hl, if_false]
        apply ih (m + 1) high (by omega) hhigh _ hih (by omega)
        rcases Nat.lt_or_gt_of_ne hne with h | h
        · omega
        · have := getD_Less_of_lt tbl hs i m h hmlen
          rw [hmask] at this
          exact absurd this hl

theorem bisect_found (mask : Uint128) (tbl : List Uint128)
    (hs : tbl.Pairwise (fun a b => a.Less b = true)) (i : Nat) (hi : i < tbl.length)
    (hmask : tbl.getD i uint128.Zero = mask) : bisect mask tbl = some (i : Int) := by
  unfold bisect
  exact bisect_loop_found mask tbl hs i hi hmask _ 0 _ (le_refl _) (by omega) (by omega)
    (by omega) (by omega)

theorem bisect_absent (mask : Uint128) (tbl : List Uint128) (h : mask ∉ tbl) :
    bisect mask tbl = some (-1) := by
  obtain ⟨r, hr, hres⟩ := bisect_some mask tbl
  rcases hres with h1 | ⟨_, h2, h3⟩
  · rw [hr, h1]
  · exfalso; apply h
    rw [← h3, List.getD_eq_getElem _ _ h2]
    exact List.getElem_mem _

end sudoku_solver

open uint128 sudoku_constants sudoku_solver

namespace sudoku_solver

theorem upd_same {α : Type} (f : Nat → α) (i : Nat) (v : α) : upd f i v i = v := by
  simp [upd]

theorem upd_other {α : Type} (f : Nat → α) (i j : Nat) (v : α) (h : j ≠ i) :
    upd f i v j = f j := by
  simp [upd, h]

theorem place_locations_foldl (digit : Nat) (nb nn : Uint128) (l : List Nat) (hl : l.Nodup) :
    ∀ (locs : Nat → Uint128) (d : Nat),
    (l.foldl (fun locs d =>
      if d ≠ digit then upd locs d ((locs d).And nb)
      else upd locs d ((locs d).And nn)) locs) d =
      if d ∈ l then (if d ≠ digit then (locs d).And nb else (locs d).And nn) else locs d := by
  induction l with
  | nil => intro locs d; simp
  | cons a l ih =>
    intro locs d
    rw [List.foldl_cons, ih (List.nodup_cons.1 hl).2]
    have ha : a ∉ l := (List.nodup_cons.1 hl).1
    by_cases hda : d = a
    · subst hda
      rw [if_neg ha, if_pos (List.mem_cons_self _ _)]
      by_cases hd : d ≠ digit
      · rw [if_pos hd, if_pos hd, upd_same]
      · rw [if_neg hd, if_neg hd, upd_same]
    · have hupd : (if a ≠ digit then upd locs a ((locs a).And nb)
          else upd locs a ((locs a).And nn)) d = locs d := by
        by_cases hd : a ≠ digit
        · rw [if_pos hd, upd_other _ _ _ _ hda]
        · rw [if_neg hd, upd_other _ _ _ _ hda]
      rw [hupd]
      by_cases hdl : d ∈ l
      · rw [if_pos hdl, if_pos (List.mem_cons_of_mem _ hdl)]
      · have : d ∉ a :: l := by
          intro h; rcases List.mem_cons.1 h with h | h
          · exact hda h
          · exact hdl h
        rw [if_neg hdl, if_neg this]

theorem mem_range_one_nine (d : Nat) : d ∈ List.range' 1 Nine ↔ 1 ≤ d ∧ d ≤ 9 := by
  rw [List.mem_range'_1]; unfold Nine; omega

theorem mem_digits (d : Nat) : d ∈ digits ↔ 1 ≤ d ∧ d ≤ 9 := mem_range_one_nine d

/-- The masks after `place`: the other digits lose the bit, the digit itself
loses the neighbours of the cell. -/
theorem place_locations_apply (digit cell : Nat) (nb : Uint128) (locs : Nat → Uint128)
    (d : Nat) :
    place_locations digit cell nb locs d =
      if 1 ≤ d ∧ d ≤ 9 then
        (if d ≠ digit then (locs d).And nb
         else (locs d).And (Neighbours.getD cell uint128.Zero).Not)
      else locs d := by
  unfold place_locations
  rw [place_locations_foldl digit nb _ _ (List.nodup_range' _ _)]
  simp only [mem_range_one_nine]

theorem place_locations_eq (digit cell : Nat) (bit : Uint128) (s : State) (d : Nat) :
    (place digit cell bit s).locations d =
      if 1 ≤ d ∧ d ≤ 9 then
        (if d ≠ digit then (s.locations d).And bit.Not
         else (s.locations d).And (Neighbours.getD cell uint128.Zero).Not)
      else s.locations d := by
  unfold place
  exact place_locations_apply _ _ _ _ _

theorem place_contents_eq (digit cell : Nat) (bit : Uint128) (s : State) (c : Nat) :
    (place digit cell bit s).contents c = if c = cell then digit else s.contents c := by
  simp [place, upd]

theorem place_progress (digit cell : Nat) (bit : Uint128) (s : State) :
    (place digit cell bit s).progress = true := rfl

theorem upd3_eq (f : Nat → Bool) (g0 g1 g2 g : Nat) :
    upd (upd (upd f g0 true) g1 true) g2 true g =
      if g = g0 ∨ g = g1 ∨ g = g2 then true else f g := by
  unfold upd
  by_cases h2 : g = g2
  · simp [h2]
  · by_cases h1 : g = g1
    · simp [h1, h2]
    · by_cases h0 : g = g0
      · simp [h0, h1, h2]
      · simp [h0, h1, h2]

theorem upd_flags (us : Nat → Nat → Bool) (digit g0 g1 g2 d g : Nat) :
    upd (upd (upd us digit (upd (us digit) g0 true)) digit
      (upd (upd us digit (upd (us digit) g0 true) digit) g1 true)) digit
      (upd (upd (upd us digit (upd (us digit) g0 true)) digit
      (upd (upd us digit (upd (us digit) g0 true) digit) g1 true) digit)
        g2 true) d g =
      if d = digit ∧ (g = g0 ∨ g = g1 ∨ g = g2) then true else us d g := by
  by_cases hd : d = digit
  · subst hd
    rw [upd_same, upd_same, upd_same, upd3_eq]
    simp
  · rw [upd_other _ _ _ _ hd, upd_other _ _ _ _ hd, upd_other _ _ _ _ hd]
    simp [hd]

theorem place_unit_solved_eq (digit cell : Nat) (bit : Uint128) (s : State) (d g : Nat) :
    (place digit cell bit s).unit_solved d g =
      if d = digit ∧ (g = (Unit_index.getD cell []).getD 0 0 ∨
          g = (Unit_index.getD cell []).getD 1 0 ∨ g = (Unit_index.getD cell []).getD 2 0)
      then true else s.unit_solved d g :=
  upd_flags s.unit_solved digit _ _ _ d g

theorem unplace_locations_eq (digit : Nat) (mask : Uint128) (s : State) (d : Nat) :
    (unplace digit mask s).locations d =
      if d = digit ∧ ((s.locations digit).And mask).IsZero = false
      then (s.locations d).And mask.Not else s.locations d := by
  unfold unplace
  by_cases h : ((s.locations digit).And mask).IsZero = true
  · simp [h]
  · have h2 : ((s.locations digit).And mask).IsZero = false := by simpa using h
    simp only [h2, Bool.not_false, if_true, and_true]
    by_cases hd : d = digit
    · subst hd; rw [if_pos rfl]; exact upd_same _ _ _
    · rw [if_neg hd]; exact upd_other _ _ _ _ hd

theorem unplace_progress_eq (digit : Nat) (mask : Uint128) (s : State) :
    (unplace digit mask s).progress =
      (!((s.locations digit).And mask).IsZero || s.progress) := by
  unfold unplace
  by_cases h : ((s.locations digit).And mask).IsZero = true
  · simp [h]
  · have h2 : ((s.locations digit).And mask).IsZero = false := by simpa using h
    simp [h2]

theorem unplace_contents_eq (digit : Nat) (mask : Uint128) (s : State) :
    (unplace digit mask s).contents = s.contents := by
  unfold unplace; split <;> rfl

theorem unplace_unit_solved_eq (digit : Nat) (mask : Uint128) (s : State) :
    (unplace digit mask s).unit_solved = s.unit_solved := by
  unfold unplace; split <;> rfl

end sudoku_solver

open uint128 sudoku_constants sudoku_solver

namespace sudoku_solver

set_option maxRecDepth 100000 in
theorem bisect_Powers_table :
    ∀ c < 81, bisect (Powers.getD c uint128.Zero) p_all_powers = some (Int.ofNat c) := by decide!

set_option maxRecDepth 100000 in
theorem Powers_test_table : ∀ c < 81,
    ((Powers.getD c uint128.Zero).Sub ONE).map
      (fun m1 => ((Powers.getD c uint128.Zero).And m1).IsZero) = some true := by decide!

theorem Small_lt (u : Uint128) (h : Small u) : u.Lo < 2 ^ 64 ∧ u.Hi < 2 ^ 64 :=
  ⟨h.1, lt_trans h.2 (by decide)⟩

/-- A mask within the 81 cells that passes the single-bit test is the bit of
a cell. -/
theorem single_bit_is_power (u m1 : Uint128) (hu : Small u)
    (hs : u.Sub ONE = some m1) (hz : (u.And m1).IsZero = true) :
    ∃ c, c < 81 ∧ u = Powers.getD c uint128.Zero := by
  rcases Uint128.single_bit_of_test u m1 (Small_lt u hu).1 (Small_lt u hu).2 hs hz with
    ⟨k, hk, e⟩ | ⟨k, hk, e⟩
  · exact ⟨k, by omega, by rw [Powers_getD_lo k hk]; exact e⟩
  · have h17 : k < 17 := by
      by_contra h
      have h1 : u.Hi = 2 ^ k := by rw [e]
      have h2 : (2:Nat) ^ 17 ≤ 2 ^ k := Nat.pow_le_pow_right (by decide) (by omega)
      have := hu.2
      omega
    refine ⟨k + 64, by omega, ?_⟩
    rw [Powers_getD_hi (k + 64) (by omega) (by omega)]
    simpa using e

/-- The cases of one iteration of `locate`. -/
theorem locate_body_cases (d g : Nat) (s : State) :
    (locate_body (d, g) s = .ok () s ∧
      (s.unit_solved d g = true ∨
        ∀ c < 81, (s.locations d).And (Group_masks.getD g uint128.Zero) ≠
          Powers.getD c uint128.Zero)) ∨
    (locate_body (d, g) s = .panic Panic.underflow s ∧ s.unit_solved d g = false ∧
      (s.locations d).And (Group_masks.getD g uint128.Zero) = uint128.Zero) ∨
    (∃ c, c < 81 ∧ s.unit_solved d g = false ∧
      (s.locations d).And (Group_masks.getD g uint128.Zero) = Powers.getD c uint128.Zero ∧
      locate_body (d, g) s = .ok () (place d c (Powers.getD c uint128.Zero) s)) := by
  unfold locate_body
  simp only []
  by_cases hf : s.unit_solved d g = true
  · left; simp [hf]
  · have hf' : s.unit_solved d g = false := by simpa using hf
    simp only [hf', Bool.false_eq_true, if_false]
    have hsmall : Small ((s.locations d).And (Group_masks.getD g uint128.Zero)) :=
      Small_And_right _ _ (Group_masks_small g)
    generalize hmask : (s.locations d).And (Group_masks.getD g uint128.Zero) = mask at hsmall ⊢
    cases hsub : mask.Sub ONE with
    | none =>
      right; left
      refine ⟨rfl, trivial, ?_⟩
      have := (Uint128.Sub_ONE_eq_none mask).1 hsub
      rw [Uint128.eq_iff]; exact this
    | some m1 =>
      simp only []
      by_cases hz : (mask.And m1).IsZero = true
      · right; right
        obtain ⟨c, hc, e⟩ := single_bit_is_power mask m1 hsmall hsub hz
        refine ⟨c, hc, trivial, e, ?_⟩
        simp only [hz, Bool.not_true, Bool.false_eq_true, if_false]
        rw [e, bisect_Powers_table c hc]
        simp
      · left
        have hz' : (mask.And m1).IsZero = false := by simpa using hz
        simp only [hz', Bool.not_false, if_true, true_and]
        right
        intro c hc e
        have := Powers_test_table c hc
        rw [← e, hsub] at this
        simp [hz'] at this

end sudoku_solver

open uint128 sudoku_constants sudoku_solver

namespace sudoku_solver

/-- The inner loop of `single` once the count is positive: the next digit
that carries the bit ends it. -/
theorem single_count_pos (locs : Nat → Uint128) (bit : Uint128) :
    ∀ (ds : List Nat) (count dd : Nat), 1 ≤ count →
      single_count locs bit ds (count, dd) =
        match ds.filter (fun d => !((locs d).And bit).IsZero) with
        | [] => (count, dd)
        | d :: _ => (count + 1, d) := by
  intro ds
  induction ds with
  | nil => intro count dd _; simp [single_count]
  | cons a ds ih =>
    intro count dd hc
    unfold single_count
    by_cases h : (!((locs a).And bit).IsZero) = true
    · have h1 : count + 1 > 1 := by omega
      simp [h, h1, List.filter_cons]
    · simp only [h, if_false, List.filter_cons]
      exact ih count dd hc

/-- The inner loop of `single` from a count of zero. -/
theorem single_count_zero (locs : Nat → Uint128) (bit : Uint128) :
    ∀ (ds : List Nat) (dd : Nat),
      single_count locs bit ds (0, dd) =
        match ds.filter (fun d => !((locs d).And bit).IsZero) with
        | [] => (0, dd)
        | [d] => (1, d)
        | _ :: d2 :: _ => (2, d2) := by
  intro ds
  induction ds with
  | nil => intro dd; simp [single_count]
  | cons a ds ih =>
    intro dd
    unfold single_count
    by_cases h : (!((locs a).And bit).IsZero) = true
    · simp only [h, if_true, List.filter_cons]
      have h1 : ¬ (0 + 1 > 1) := by omega
      simp only [h1, if_false]
      rw [single_count_pos locs bit ds (0 + 1) a (by omega)]
      cases ds.filter (fun d => !((locs d).And bit).IsZero) <;> rfl
    · simp only [h, if_false, List.filter_cons]
      exact ih dd

/-- The count of `single` is one exactly when one digit carries the bit of
the cell, and `dd` is then that digit. -/
theorem single_count_spec (locs : Nat → Uint128) (cell : Nat) :
    ((single_count locs (Powers.getD cell uint128.Zero) (List.range' 1 Nine) (0, 0)).1 = 1 ∧
      ∃ d, 1 ≤ d ∧ d ≤ 9 ∧
        (single_count locs (Powers.getD cell uint128.Zero) (List.range' 1 Nine) (0, 0)).2 = d ∧
        ∀ d2, 1 ≤ d2 → d2 ≤ 9 → (hasBit (locs d2) cell = true ↔ d2 = d)) ∨
    ((single_count locs (Powers.getD cell uint128.Zero) (List.range' 1 Nine) (0, 0)).1 ≠ 1 ∧
      ¬ ∃ d, 1 ≤ d ∧ d ≤ 9 ∧
        ∀ d2, 1 ≤ d2 → d2 ≤ 9 → (hasBit (locs d2) cell = true ↔ d2 = d)) := by
  rw [single_count_zero]
  have hfilter : ∀ d2, d2 ∈ (List.range' 1 Nine).filter
      (fun d => !((locs d).And (Powers.getD cell uint128.Zero)).IsZero) ↔
      (1 ≤ d2 ∧ d2 ≤ 9) ∧ hasBit (locs d2) cell = true := by
    intro d2
    rw [List.mem_filter, mem_range_one_nine]
    rfl
  have hnodup : ((List.range' 1 Nine).filter
      (fun d => !((locs d).And (Powers.getD cell uint128.Zero)).IsZero)).Nodup :=
    (List.nodup_range' _ _).filter _
  generalize (List.range' 1 Nine).filter
      (fun d => !((locs d).And (Powers.getD cell uint128.Zero)).IsZero) = S at hfilter hnodup
  match S, hfilter, hnodup with
  | [], hfilter, _ =>
    right
    refine ⟨by simp, ?_⟩
    rintro ⟨d, h1, h2, h4⟩
    have := (hfilter d).2 ⟨⟨h1, h2⟩, (h4 d h1 h2).2 rfl⟩
    simp at this
  | [d], hfilter, _ =>
    left
    refine ⟨rfl, ?_⟩
    have hd := (hfilter d).1 (List.mem_singleton_self d)
    refine ⟨d, hd.1.1, hd.1.2, rfl, ?_⟩
    intro d2 h1 h2
    constructor
    · intro hb
      have := (hfilter d2).2 ⟨⟨h1, h2⟩, hb⟩
      simpa using this
    · intro e; subst e; exact hd.2
  | d1 :: d2 :: rest, hfilter, hnodup =>
    right
    refine ⟨by simp, ?_⟩
    rintro ⟨d, _, _, h4⟩
    have m1 := (hfilter d1).1 (by simp)
    have m2 := (hfilter d2).1 (by simp)
    have e1 := (h4 d1 m1.1.1 m1.1.2).1 m1.2
    have e2 := (h4 d2 m2.1.1 m2.1.2).1 m2.2
    have : d1 ≠ d2 := by
      intro e
      rw [List.nodup_cons] at hnodup
      apply hnodup.1; rw [e]; simp
    omega

/-- The cases of one iteration of `single`. -/
theorem single_body_cases (cell : Nat) (s : State) :
    (single_body cell s = .ok () s ∧
      (s.contents cell ≠ 0 ∨
        ¬ ∃ d, 1 ≤ d ∧ d ≤ 9 ∧
          ∀ d2, 1 ≤ d2 → d2 ≤ 9 → (hasBit (s.locations d2) cell = true ↔ d2 = d))) ∨
    (∃ d, 1 ≤ d ∧ d ≤ 9 ∧ s.contents cell = 0 ∧
      (∀ d2, 1 ≤ d2 → d2 ≤ 9 → (hasBit (s.locations d2) cell = true ↔ d2 = d)) ∧
      single_body cell s = .ok () (place d cell (Powers.getD cell uint128.Zero) s)) := by
  unfold single_body
  by_cases h0 : s.contents cell ≠ 0
  · left; simp [h0]
  · have h0' : s.contents cell = 0 := by simpa using h0
    simp only [h0, if_false]
    rcases single_count_spec s.locations cell with ⟨h1, d, hd1, hd2, hdd, huniq⟩ | ⟨h1, hno⟩
    · right
      refine ⟨d, hd1, hd2, h0', huniq, ?_⟩
      simp only [h1, if_true, hdd]
    · left
      simp only [h1, if_false, true_and]
      right; exact hno

end sudoku_solver

open uint128 sudoku_constants sudoku_solver

namespace sudoku_solver

set_option maxRecDepth 100000 in
theorem Alignments_byline_table : ∀ i < 18, ∀ j < 12,
    ((Alignments_byline.getD i []).getD j ⟨uint128.Zero, 0, 0⟩).S < 9 ∧
    ((Alignments_byline.getD i []).getD j ⟨uint128.Zero, 0, 0⟩).Mask.And
      (Group_masks.getD ((Alignments_byline.getD i []).getD j ⟨uint128.Zero, 0, 0⟩).S
        uint128.Zero) =
      ((Alignments_byline.getD i []).getD j ⟨uint128.Zero, 0, 0⟩).Mask := by decide!

set_option maxRecDepth 100000 in
theorem Alignments_bysqua_table : ∀ i < 9, ∀ j < 24,
    ((Alignments_bysqua.getD i []).getD j ⟨uint128.Zero, 0, 0⟩).G < 27 ∧
    ((Alignments_bysqua.getD i []).getD j ⟨uint128.Zero, 0, 0⟩).Mask.And
      (Group_masks.getD ((Alignments_bysqua.getD i []).getD j ⟨uint128.Zero, 0, 0⟩).G
        uint128.Zero) =
      ((Alignments_bysqua.getD i []).getD j ⟨uint128.Zero, 0, 0⟩).Mask := by decide!

set_option maxRecDepth 100000 in
theorem Alignments_byline_length : ∀ i < 18, (Alignments_byline.getD i []).length = 12 := by
  decide!

set_option maxRecDepth 100000 in
theorem Alignments_bysqua_length : ∀ i < 9, (Alignments_bysqua.getD i []).length = 24 := by
  decide!

theorem getD_map_map (l : List (List Align)) (i : Nat) :
    (l.map fun bucket => bucket.map fun a => a.Mask).getD i [] =
      (l.getD i []).map fun a => a.Mask := by
  by_cases h : i < l.length
  · rw [List.getD_eq_getElem _ _ (by simpa using h), List.getD_eq_getElem _ _ h]
    simp
  · rw [List.getD_eq_default _ _ (by simpa using h), List.getD_eq_default _ _ (by omega)]
    rfl

theorem getD_map_Mask (l : List Align) (j : Nat) :
    (l.map fun a => a.Mask).getD j uint128.Zero = (l.getD j ⟨uint128.Zero, 0, 0⟩).Mask := by
  by_cases h : j < l.length
  · rw [List.getD_eq_getElem _ _ (by simpa using h), List.getD_eq_getElem _ _ h]
    simp
  · rw [List.getD_eq_default _ _ (by simpa using h), List.getD_eq_default _ _ (by omega)]

/-- A lookup in a bucket of alignments returns, and a non-negative result is
the index of an entry of the bucket with exactly that mask. -/
theorem bisect_bucket (mask : Uint128) (bucket : List Align) :
    ∃ r, bisect mask (bucket.map fun a => a.Mask) = some r ∧
      (r < 0 ∨ (0 ≤ r ∧ r.toNat < bucket.length ∧
        (bucket.getD r.toNat ⟨uint128.Zero, 0, 0⟩).Mask = mask)) := by
  obtain ⟨r, hr, hres⟩ := bisect_some mask (bucket.map fun a => a.Mask)
  refine ⟨r, hr, ?_⟩
  rcases hres with h | ⟨h1, h2, h3⟩
  · left; omega
  · right
    refine ⟨h1, by simpa using h2, ?_⟩
    rw [← getD_map_Mask]; exact h3

end sudoku_solver

open uint128 sudoku_constants sudoku_solver

namespace sudoku_solver

/-- A loop whose iterations either leave the state or take a step of `R`
ends in a state reached by steps of `R`, by return or by a panic. -/
theorem forM_loop_chain {α : Type} (R : State → State → Prop) (Q : Panic → State → Prop)
    (f : α → State → Res Unit) (xs : List α)
    (hok : ∀ x ∈ xs, ∀ s s1, f x s = .ok () s1 → s1 = s ∨ R s s1)
    (hpanic : ∀ x ∈ xs, ∀ s p s1, f x s = .panic p s1 → s1 = s ∧ Q p s)
    (hfuel : ∀ x ∈ xs, ∀ s, f x s ≠ .fuel) :
    ∀ s, ∃ s1, Relation.ReflTransGen R s s1 ∧
      (forM_loop f xs s = .ok () s1 ∨ ∃ p, Q p s1 ∧ forM_loop f xs s = .panic p s1) := by
  induction xs with
  | nil => intro s; exact ⟨s, Relation.ReflTransGen.refl, Or.inl rfl⟩
  | cons x xs ih =>
    intro s
    unfold forM_loop
    cases hfx : f x s with
    | ok u s1 =>
      cases u
      obtain ⟨s2, hchain, hres⟩ := ih (fun y hy => hok y (List.mem_cons_of_mem _ hy))
        (fun y hy => hpanic y (List.mem_cons_of_mem _ hy))
        (fun y hy => hfuel y (List.mem_cons_of_mem _ hy)) s1
      refine ⟨s2, ?_, hres⟩
      rcases hok x (List.mem_cons_self _ _) s s1 hfx with h | h
      · rw [← h]; exact hchain
      · exact Relation.ReflTransGen.head h hchain
    | panic p s1 =>
      obtain ⟨h1, h2⟩ := hpanic x (List.mem_cons_self _ _) s p s1 hfx
      exact ⟨s, Relation.ReflTransGen.refl, Or.inr ⟨p, h2, by rw [h1]⟩⟩
    | fuel => exact absurd hfx (hfuel x (List.mem_cons_self _ _) s)

/-- A loop that ends without the progress flag, where every iteration that
changes the state sets the flag, changed nothing in any iteration. -/
theorem forM_loop_fix {α : Type} (f : α → State → Res Unit) (xs : List α)
    (hstep : ∀ x ∈ xs, ∀ s s1, f x s = .ok () s1 → s1 = s ∨ s1.progress = true) :
    ∀ s s2, forM_loop f xs s = .ok () s2 → s2.progress = false →
      s2 = s ∧ ∀ x ∈ xs, f x s = .ok () s := by
  induction xs with
  | nil =>
    intro s s2 h _
    simp only [forM_loop, Res.ok.injEq, true_and] at h
    exact ⟨h.symm, by simp⟩
  | cons x xs ih =>
    intro s s2 h hp
    unfold forM_loop at h
    cases hfx : f x s with
    | ok u s1 =>
      cases u
      rw [hfx] at h
      obtain ⟨e, hall⟩ := ih (fun y hy => hstep y (List.mem_cons_of_mem _ hy)) s1 s2 h hp
      have hs1 : s1 = s := by
        rcases hstep x (List.mem_cons_self _ _) s s1 hfx with h1 | h1
        · exact h1
        · rw [← e, hp] at h1; cases h1
      subst hs1
      refine ⟨e, ?_⟩
      intro y hy
      rcases List.mem_cons.1 hy with h1 | h1
      · rw [h1]; exact hfx
      · exact hall y h1
    | panic p s1 => rw [hfx] at h; cases h
    | fuel => rw [hfx] at h; cases h

theorem mem_dg_pairs (lo n d g : Nat) :
    (d, g) ∈ dg_pairs lo n ↔ (1 ≤ d ∧ d ≤ 9) ∧ lo ≤ g ∧ g < lo + n := by
  unfold dg_pairs
  simp only [List.mem_flatMap, List.mem_map, Prod.mk.injEq]
  constructor
  · rintro ⟨d2, hd2, g2, hg2, rfl, rfl⟩
    exact ⟨(mem_range_one_nine _).1 hd2, List.mem_range'_1.1 hg2⟩
  · rintro ⟨hd, hg⟩
    exact ⟨d, (mem_range_one_nine _).2 hd, g, List.mem_range'_1.2 hg, rfl, rfl⟩

theorem place_ne_of_progress (d c : Nat) (bit : Uint128) (s : State)
    (h : s.progress = false) : place d c bit s ≠ s := by
  intro e
  have := congrArg State.progress e
  rw [place_progress, h] at this
  cases this

/-- The effect of `locate`: steps of `Hidden` from the state with the
progress flag cleared, ended by the return or, in a stuck state, by the
underflow panic. -/
theorem locate_spec (s : State) :
    ∃ s1, Relation.ReflTransGen Hidden { s with progress := false } s1 ∧
      (locate s = .ok s1.progress s1 ∨ (Stuck s1 ∧ locate s = .panic Panic.underflow s1)) := by
  obtain ⟨s1, hchain, hres⟩ := forM_loop_chain Hidden
    (fun p s => p = Panic.underflow ∧ Stuck s)
    locate_body (dg_pairs 0 (Nine * 3))
    (by
      rintro ⟨d, g⟩ hx s s1 h
      obtain ⟨hd, _, hg⟩ := (mem_dg_pairs _ _ _ _).1 hx
      rcases locate_body_cases d g s with ⟨h1, _⟩ | ⟨h1, _⟩ | ⟨c, hc, hf, hm, h1⟩
      · rw [h1] at h; injection h with _ h; exact Or.inl h.symm
      · rw [h1] at h; cases h
      · rw [h1] at h; injection h with _ h
        exact Or.inr ⟨d, g, c, hd.1, hd.2, by simpa [Nine] using hg, hc, hf, hm, h.symm⟩)
    (by
      rintro ⟨d, g⟩ hx s p s1 h
      obtain ⟨hd, _, hg⟩ := (mem_dg_pairs _ _ _ _).1 hx
      rcases locate_body_cases d g s with ⟨h1, _⟩ | ⟨h1, hf, hm⟩ | ⟨c, _, _, _, h1⟩
      · rw [h1] at h; cases h
      · rw [h1] at h; injection h with h2 h3
        exact ⟨h3.symm, h2.symm, d, g, hd.1, hd.2, by simpa [Nine] using hg, hf, hm⟩
      · rw [h1] at h; cases h)
    (by
      rintro ⟨d, g⟩ _ s h
      rcases locate_body_cases d g s with ⟨h1, _⟩ | ⟨h1, _⟩ | ⟨c, _, _, _, h1⟩ <;>
        · rw [h1] at h; cases h)
    { s with progress := false }
  refine ⟨s1, hchain, ?_⟩
  unfold locate
  rcases hres with h | ⟨p, ⟨hp, hst⟩, h⟩
  · left; rw [h]
  · right; rw [h, hp]; exact ⟨hst, rfl⟩

/-- The effect of `single`: steps of `Naked`; the call always returns. -/
theorem single_spec (s : State) :
    ∃ s1, Relation.ReflTransGen Naked { s with progress := false } s1 ∧
      single s = .ok s1.progress s1 := by
  obtain ⟨s1, hchain, hres⟩ := forM_loop_chain Naked (fun _ _ => False)
    single_body (List.range (Nine * Nine))
    (by
      intro cell hx s s1 h
      have hc : cell < 81 := by simpa [Nine] using hx
      rcases single_body_cases cell s with ⟨h1, _⟩ | ⟨d, hd1, hd2, h0, hu, h1⟩
      · rw [h1] at h; injection h with _ h; exact Or.inl h.symm
      · rw [h1] at h; injection h with _ h
        exact Or.inr ⟨d, cell, hd1, hd2, hc, h0, hu, h.symm⟩)
    (by
      intro cell _ s p s1 h
      rcases single_body_cases cell s with ⟨h1, _⟩ | ⟨d, _, _, _, _, h1⟩ <;>
        · rw [h1] at h; cases h)
    (by
      intro cell _ s h
      rcases single_body_cases cell s with ⟨h1, _⟩ | ⟨d, _, _, _, _, h1⟩ <;>
        · rw [h1] at h; cases h)
    { s with progress := false }
  refine ⟨s1, hchain, ?_⟩
  unfold single
  rcases hres with h | ⟨p, hp, _⟩
  · rw [h]
  · exact absurd hp id

end sudoku_solver

open uint128 sudoku_constants sudoku_solver

namespace sudoku_solver

set_option maxRecDepth 10000 in
/-- One iteration of the first loop of `align` leaves the state or takes a
step of `Pointing`. -/
theorem align_line_body_cases (d g : Nat) (hd : 1 ≤ d ∧ d ≤ 9) (hg : 9 ≤ g ∧ g < 27)
    (s : State) :
    align_line_body (d, g) s = .ok () s ∨
      ∃ s1, Pointing s s1 ∧ align_line_body (d, g) s = .ok () s1 := by
  unfold align_line_body
  simp only []
  by_cases hf : s.unit_solved d g = true
  · left; simp [hf]
  · simp only [hf, if_false]
    unfold p_Alignments_byline
    rw [getD_map_map]
    obtain ⟨r, hr, hres⟩ := bisect_bucket
      ((s.locations d).And (Group_masks.getD g uint128.Zero)) (Alignments_byline.getD (g - 9) [])
    rw [hr]
    simp only []
    rcases hres with h | ⟨h1, h2, h3⟩
    · left; simp [h]
    · have hneg : ¬ r < 0 := by omega
      simp only [hneg, if_false]
      rw [Alignments_byline_length (g - 9) (by omega)] at h2
      obtain ⟨t1, t2⟩ := Alignments_byline_table (g - 9) (by omega) r.toNat h2
      generalize ((Alignments_byline.getD (g - 9) []).getD r.toNat ⟨uint128.Zero, 0, 0⟩) = e
        at h3 t1 t2 ⊢
      by_cases hz : (((Group_masks.getD e.S uint128.Zero).And (s.locations d)).And
          ((s.locations d).And (Group_masks.getD g uint128.Zero)).Not).IsZero = true
      · left; rw [if_pos hz]; simp only [Bool.false_eq_true, if_false]
      · right
        have hz' : (((Group_masks.getD e.S uint128.Zero).And (s.locations d)).And
          ((s.locations d).And (Group_masks.getD g uint128.Zero)).Not).IsZero = false := by
          simpa using hz
        refine ⟨_, ⟨d, g, e.S, hd.1, hd.2, hg.2, by omega, ?_, hz', rfl⟩, ?_⟩
        · rw [← h3]; exact t2
        · rw [if_neg hz]; simp only [Bool.false_eq_true, if_false]

set_option maxRecDepth 10000 in
/-- One iteration of the second loop of `align` leaves the state or takes a
step of `Pointing`. -/
theorem align_box_body_cases (d sq : Nat) (hd : 1 ≤ d ∧ d ≤ 9) (hg : sq < 9)
    (s : State) :
    align_box_body (d, sq) s = .ok () s ∨
      ∃ s1, Pointing s s1 ∧ align_box_body (d, sq) s = .ok () s1 := by
  unfold align_box_body
  simp only []
  by_cases hf : s.unit_solved d sq = true
  · left; simp [hf]
  · simp only [hf, if_false]
    unfold p_Alignments_bysqua
    rw [getD_map_map]
    obtain ⟨r, hr, hres⟩ := bisect_bucket
      ((s.locations d).And (Group_masks.getD sq uint128.Zero)) (Alignments_bysqua.getD sq [])
    rw [hr]
    simp only []
    rcases hres with h | ⟨h1, h2, h3⟩
    · left; simp [h]
    · have hneg : ¬ r < 0 := by omega
      simp only [hneg, if_false]
      rw [Alignments_bysqua_length sq hg] at h2
      obtain ⟨t1, t2⟩ := Alignments_bysqua_table sq hg r.toNat h2
      generalize ((Alignments_bysqua.getD sq []).getD r.toNat ⟨uint128.Zero, 0, 0⟩) = e
        at h3 t1 t2 ⊢
      by_cases hz : (((Group_masks.getD e.G uint128.Zero).And (s.locations d)).And
          ((s.locations d).And (Group_masks.getD sq uint128.Zero)).Not).IsZero = true
      · left; rw [if_pos hz]; simp only [Bool.false_eq_true, if_false]
      · right
        have hz' : (((Group_masks.getD e.G uint128.Zero).And (s.locations d)).And
          ((s.locations d).And (Group_masks.getD sq uint128.Zero)).Not).IsZero = false := by
          simpa using hz
        refine ⟨_, ⟨d, sq, e.G, hd.1, hd.2, by omega, t1, ?_, hz', rfl⟩, ?_⟩
        · rw [← h3]; exact t2
        · rw [if_neg hz]; simp only [Bool.false_eq_true, if_false]

theorem align_line_loop_spec (s : State) :
    ∃ s1, Relation.ReflTransGen Pointing s s1 ∧
      forM_loop align_line_body (dg_pairs Nine (Nine * 2)) s = .ok () s1 := by
  obtain ⟨s1, hchain, hres⟩ := forM_loop_chain Pointing (fun _ _ => False)
    align_line_body (dg_pairs Nine (Nine * 2))
    (by
      rintro ⟨d, g⟩ hx s s1 h
      obtain ⟨hd, hg1, hg2⟩ := (mem_dg_pairs _ _ _ _).1 hx
      rcases align_line_body_cases d g hd ⟨by simpa [Nine] using hg1,
        by simp only [Nine] at hg2; omega⟩ s with h1 | ⟨s2, hp, h1⟩
      · rw [h1] at h; injection h with _ h; exact Or.inl h.symm
      · rw [h1] at h; injection h with _ h; subst h; exact Or.inr hp)
    (by
      rintro ⟨d, g⟩ hx s p s1 h
      obtain ⟨hd, hg1, hg2⟩ := (mem_dg_pairs _ _ _ _).1 hx
      rcases align_line_body_cases d g hd ⟨by simpa [Nine] using hg1,
        by simp only [Nine] at hg2; omega⟩ s with h1 | ⟨s2, hp, h1⟩ <;>
        · rw [h1] at h; cases h)
    (by
      rintro ⟨d, g⟩ hx s h
      obtain ⟨hd, hg1, hg2⟩ := (mem_dg_pairs _ _ _ _).1 hx
      rcases align_line_body_cases d g hd ⟨by simpa [Nine] using hg1,
        by simp only [Nine] at hg2; omega⟩ s with h1 | ⟨s2, hp, h1⟩ <;>
        · rw [h1] at h; cases h)
    s
  refine ⟨s1, hchain, ?_⟩
  rcases hres with h | ⟨p, hp, _⟩
  · exact h
  · exact absurd hp id

theorem align_box_loop_spec (s : State) :
    ∃ s1, Relation.ReflTransGen Pointing s s1 ∧
      forM_loop align_box_body (dg_pairs 0 Nine) s = .ok () s1 := by
  obtain ⟨s1, hchain, hres⟩ := forM_loop_chain Pointing (fun _ _ => False)
    align_box_body (dg_pairs 0 Nine)
    (by
      rintro ⟨d, g⟩ hx s s1 h
      obtain ⟨hd, _, hg2⟩ := (mem_dg_pairs _ _ _ _).1 hx
      rcases align_box_body_cases d g hd (by simpa [Nine] using hg2) s with h1 | ⟨s2, hp, h1⟩
      · rw [h1] at h; injection h with _ h; exact Or.inl h.symm
      · rw [h1] at h; injection h with _ h; subst h; exact Or.inr hp)
    (by
      rintro ⟨d, g⟩ hx s p s1 h
      obtain ⟨hd, _, hg2⟩ := (mem_dg_pairs _ _ _ _).1 hx
      rcases align_box_body_cases d g hd (by simpa [Nine] using hg2) s with h1 | ⟨s2, hp, h1⟩ <;>
        · rw [h1] at h; cases h)
    (by
      rintro ⟨d, g⟩ hx s h
      obtain ⟨hd, _, hg2⟩ := (mem_dg_pairs _ _ _ _).1 hx
      rcases align_box_body_cases d g hd (by simpa [Nine] using hg2) s with h1 | ⟨s2, hp, h1⟩ <;>
        · rw [h1] at h; cases h)
    s
  refine ⟨s1, hchain, ?_⟩
  rcases hres with h | ⟨p, hp, _⟩
  · exact h
  · exact absurd hp id

/-- The effect of `align`: steps of `Pointing`; the call always returns. -/
theorem align_spec (s : State) :
    ∃ s1, Relation.ReflTransGen Pointing { s with progress := false } s1 ∧
      align s = .ok s1.progress s1 := by
  obtain ⟨s1, hc1, h1⟩ := align_line_loop_spec { s with progress := false }
  obtain ⟨s2, hc2, h2⟩ := align_box_loop_spec s1
  refine ⟨s2, hc1.trans hc2, ?_⟩
  unfold align
  rw [h1]
  simp only []
  rw [h2]

end sudoku_solver

open uint128 sudoku_constants sudoku_solver

namespace sudoku_solver

set_option maxRecDepth 100000 in
theorem in_group_unit_table : ∀ c < 81, ∀ g < 27, in_group g c = true →
    (g = unit_of c 0 ∨ g = unit_of c 1 ∨ g = unit_of c 2) := by decide!

set_option maxRecDepth 100000 in
theorem unit_of_table : ∀ c < 81, ∀ i < 3,
    unit_of c i < 27 ∧ in_group (unit_of c i) c = true := by decide!

set_option maxRecDepth 100000 in
theorem neighbour_of_unit_table : ∀ c < 81, ∀ i < 3, ∀ c2 < 81, c2 ≠ c →
    in_group (unit_of c i) c2 = true → is_neighbour c c2 = true := by decide!

set_option maxRecDepth 100000 in
theorem neighbour_irrefl_table : ∀ c < 81, is_neighbour c c = false := by decide!

set_option maxRecDepth 100000 in
theorem neighbour_table : ∀ c < 81, ∀ c2 < 81, is_neighbour c c2 = true →
    is_neighbour c2 c = true ∧
      (in_group (unit_of c 0) c2 = true ∨ in_group (unit_of c 1) c2 = true ∨
        in_group (unit_of c 2) c2 = true) := by decide!

set_option maxRecDepth 100000 in
theorem Neighbours_small_table : ∀ c < 81,
    (Neighbours.getD c uint128.Zero).Lo < 2 ^ 64 ∧
      (Neighbours.getD c uint128.Zero).Hi < 2 ^ 17 := by decide!

end sudoku_solver

open uint128 sudoku_constants sudoku_solver

namespace sudoku_solver

theorem hasBit_And (u v : Uint128) (c : Nat) :
    hasBit (u.And v) c = (hasBit u c && hasBit v c) := by
  by_cases h : c < 81
  · rw [hasBit_eq_testBit _ _ h, hasBit_eq_testBit _ _ h, hasBit_eq_testBit _ _ h,
      Uint128.testBit_And]
  · rw [hasBit_ge _ _ (by omega), hasBit_ge _ _ (by omega)]; rfl

theorem hasBit_Not (u : Uint128) (c : Nat) (h : c < 81) :
    hasBit u.Not c = !hasBit u c := by
  rw [hasBit_eq_testBit _ _ h, hasBit_eq_testBit _ _ h, Uint128.testBit_Not _ _ (by omega)]

theorem hasBit_Powers (c x : Nat) (hc : c < 81) (hx : x < 81) :
    hasBit (Powers.getD c uint128.Zero) x = decide (x = c) := by
  rw [hasBit_eq_testBit _ _ hx, testBit_Powers _ _ hc]

theorem hasBit_of_And_left (u v : Uint128) (c : Nat) (h : hasBit (u.And v) c = true) :
    hasBit u c = true := by
  rw [hasBit_And] at h
  cases hu : hasBit u c
  · rw [hu] at h; cases h
  · rfl

theorem hasBit_And_false (u v : Uint128) (c : Nat) (h : hasBit u c = false) :
    hasBit (u.And v) c = false := by
  rw [hasBit_And, h]; rfl

/-- The candidate bits after `place`. -/
theorem place_hasBit (d c : Nat) (s : State) (hc : c < 81) (d2 x : Nat) (hx : x < 81)
    (hd2 : 1 ≤ d2 ∧ d2 ≤ 9) :
    hasBit ((place d c (Powers.getD c uint128.Zero) s).locations d2) x =
      (hasBit (s.locations d2) x &&
        (if d2 ≠ d then !decide (x = c) else !is_neighbour c x)) := by
  rw [place_locations_eq, if_pos hd2]
  by_cases h : d2 ≠ d
  · rw [if_pos h, if_pos h, hasBit_And, hasBit_Not _ _ hx, hasBit_Powers _ _ hc hx]
  · rw [if_neg h, if_neg h, hasBit_And, hasBit_Not _ _ hx]
    rfl

theorem place_hasBit_le (d c : Nat) (bit : Uint128) (s : State) (d2 x : Nat)
    (h : hasBit ((place d c bit s).locations d2) x = true) :
    hasBit (s.locations d2) x = true := by
  rw [place_locations_eq] at h
  by_cases h1 : 1 ≤ d2 ∧ d2 ≤ 9
  · rw [if_pos h1] at h
    by_cases h2 : d2 ≠ d
    · rw [if_pos h2] at h; exact hasBit_of_And_left _ _ _ h
    · rw [if_neg h2] at h; exact hasBit_of_And_left _ _ _ h
  · rw [if_neg h1] at h; exact h

theorem unplace_hasBit_le (d : Nat) (m : Uint128) (s : State) (d2 x : Nat)
    (h : hasBit ((unplace d m s).locations d2) x = true) :
    hasBit (s.locations d2) x = true := by
  rw [unplace_locations_eq] at h
  by_cases h1 : d2 = d ∧ ((s.locations d).And m).IsZero = false
  · rw [if_pos h1] at h; exact hasBit_of_And_left _ _ _ h
  · rw [if_neg h1] at h; exact h

theorem bool_false_of_imp {a b : Bool} (h : a = true → b = true) (hb : b = false) :
    a = false := by
  cases a
  · rfl
  · rw [h rfl] at hb; cases hb

/-- The invariant holds after the reset of `Start_solver`. -/
theorem Inv_reset (s : State) : Inv (reset s) where
  excl := by intro c hc h; exact absurd (by simp [reset, Nine, hc]) h
  nbr := by intro c hc h; exact absurd (by simp [reset, Nine, hc]) h
  flag := by intro c hc h; exact absurd (by simp [reset, Nine, hc]) h
  solved := by
    intro d h1 h2 g hg h
    simp [reset, Nine, h1, h2, hg] at h
  digit := by intro c hc; simp [reset, Nine, hc]

/-- The invariant is kept by `place` of a digit (or of zero) at a cell. -/
theorem Inv_place (s : State) (hs : Inv s) (d c : Nat) (hd : d ≤ 9) (hc : c < 81) :
    Inv (place d c (Powers.getD c uint128.Zero) s) where
  excl := by
    intro x hx hx0 d2 h1 h2 hne
    rw [place_hasBit d c s hc d2 x hx ⟨h1, h2⟩]
    rw [place_contents_eq] at hx0 hne
    by_cases hxc : x = c
    · rw [if_pos hxc] at hne
      rw [if_pos hne]; simp [hxc]
    · rw [if_neg hxc] at hx0 hne
      rw [hs.excl x hx hx0 d2 h1 h2 hne]; rfl
  nbr := by
    intro x hx hx0 x2 hx2 hn
    rw [place_contents_eq] at hx0 ⊢
    by_cases hxc : x = c
    · rw [if_pos hxc] at hx0 ⊢
      subst hxc
      rw [place_hasBit d x s hc d x2 hx2 ⟨by omega, hd⟩]
      simp [hn]
    · rw [if_neg hxc] at hx0 ⊢
      apply bool_false_of_imp (place_hasBit_le d c _ s _ x2)
      exact hs.nbr x hx hx0 x2 hx2 hn
  flag := by
    intro x hx hx0 i hi
    rw [place_contents_eq] at hx0 ⊢
    rw [place_unit_solved_eq]
    by_cases hxc : x = c
    · rw [if_pos hxc]
      subst hxc
      apply if_pos
      refine ⟨rfl, ?_⟩
      unfold unit_of
      interval_cases i
      · exact Or.inl rfl
      · exact Or.inr (Or.inl rfl)
      · exact Or.inr (Or.inr rfl)
    · rw [if_neg hxc] at hx0 ⊢
      rw [hs.flag x hx hx0 i hi]; simp
  solved := by
    intro d2 h1 h2 g hg hf
    rw [place_unit_solved_eq] at hf
    by_cases hnew : d2 = d ∧ (g = (Unit_index.getD c []).getD 0 0 ∨
        g = (Unit_index.getD c []).getD 1 0 ∨ g = (Unit_index.getD c []).getD 2 0)
    · obtain ⟨e, hg3⟩ := hnew
      subst e
      refine ⟨c, hc, ?_⟩
      intro c2 hc2 hne hin
      rw [place_hasBit d2 c s hc d2 c2 hc2 ⟨h1, h2⟩]
      have hn : is_neighbour c c2 = true := by
        rcases hg3 with e | e | e
        · exact neighbour_of_unit_table c hc 0 (by decide) c2 hc2 hne (by rw [e] at hin; exact hin)
        · exact neighbour_of_unit_table c hc 1 (by decide) c2 hc2 hne (by rw [e] at hin; exact hin)
        · exact neighbour_of_unit_table c hc 2 (by decide) c2 hc2 hne (by rw [e] at hin; exact hin)
      simp [hn]
    · rw [if_neg hnew] at hf
      obtain ⟨c1, hc1, h⟩ := hs.solved d2 h1 h2 g hg hf
      refine ⟨c1, hc1, ?_⟩
      intro c2 hc2 hne hin
      apply bool_false_of_imp (place_hasBit_le d c _ s _ c2)
      exact h c2 hc2 hne hin
  digit := by
    intro x hx
    rw [place_contents_eq]
    by_cases hxc : x = c
    · rw [if_pos hxc]; exact hd
    · rw [if_neg hxc]; exact hs.digit x hx

/-- The invariant is kept by `unplace`. -/
theorem Inv_unplace (s : State) (hs : Inv s) (d : Nat) (m : Uint128) :
    Inv (unplace d m s) where
  excl := by
    intro x hx hx0 d2 h1 h2 hne
    rw [unplace_contents_eq] at hx0 hne
    apply bool_false_of_imp (unplace_hasBit_le d m s _ x)
    exact hs.excl x hx hx0 d2 h1 h2 hne
  nbr := by
    intro x hx hx0 x2 hx2 hn
    rw [unplace_contents_eq] at hx0 ⊢
    apply bool_false_of_imp (unplace_hasBit_le d m s _ x2)
    exact hs.nbr x hx hx0 x2 hx2 hn
  flag := by
    intro x hx hx0 i hi
    rw [unplace_contents_eq] at hx0 ⊢
    rw [unplace_unit_solved_eq]
    exact hs.flag x hx hx0 i hi
  solved := by
    intro d2 h1 h2 g hg hf
    rw [unplace_unit_solved_eq] at hf
    obtain ⟨c1, hc1, h⟩ := hs.solved d2 h1 h2 g hg hf
    refine ⟨c1, hc1, ?_⟩
    intro c2 hc2 hne hin
    apply bool_false_of_imp (unplace_hasBit_le d m s _ c2)
    exact h c2 hc2 hne hin
  digit := by
    intro x hx
    rw [unplace_contents_eq]; exact hs.digit x hx

theorem Inv_progress (s : State) (hs : Inv s) (b : Bool) : Inv { s with progress := b } where
  excl := hs.excl
  nbr := hs.nbr
  flag := hs.flag
  solved := hs.solved
  digit := hs.digit

end sudoku_solver

open uint128 sudoku_constants sudoku_solver

namespace sudoku_solver

theorem filter_length_le {α : Type} (l : List α) (p q : α → Bool)
    (h : ∀ x ∈ l, p x = true → q x = true) : (l.filter p).length ≤ (l.filter q).length := by
  rw [← List.countP_eq_length_filter, ← List.countP_eq_length_filter]
  exact List.countP_mono_left h

theorem filter_length_lt {α : Type} (l : List α) (p q : α → Bool)
    (h : ∀ x ∈ l, p x = true → q x = true) (a : α) (ha : a ∈ l) (hq : q a = true)
    (hp : p a = false) : (l.filter p).length < (l.filter q).length := by
  induction l with
  | nil => cases ha
  | cons b l ih =>
    rcases List.mem_cons.1 ha with e | hmem
    · subst e
      have := filter_length_le l p q (fun x hx => h x (List.mem_cons_of_mem _ hx))
      simp only [List.filter_cons, hq, hp, if_true, List.length_cons]
      simp only [Bool.false_eq_true, if_false]
      omega
    · have := ih (fun x hx => h x (List.mem_cons_of_mem _ hx)) hmem
      simp only [List.filter_cons]
      by_cases hpb : p b = true
      · have hqb := h b (List.mem_cons_self _ _) hpb
        simp only [hpb, hqb, if_true, List.length_cons]
        omega
      · have hpb2 : p b = false := by simpa using hpb
        rw [hpb2]
        by_cases hqb : q b = true
        · rw [if_pos hqb, if_neg (by simp), List.length_cons]; omega
        · rw [if_neg hqb, if_neg (by simp)]; exact this

theorem OnesCount64_le (a b : Nat) (h : ∀ i, i < 64 → a.testBit i = true → b.testBit i = true) :
    OnesCount64 a ≤ OnesCount64 b := by
  unfold OnesCount64
  apply filter_length_le
  intro i hi
  exact h i (List.mem_range.1 hi)

theorem OnesCount64_lt (a b : Nat) (h : ∀ i, i < 64 → a.testBit i = true → b.testBit i = true)
    (i : Nat) (hi : i < 64) (hb : b.testBit i = true) (ha : a.testBit i = false) :
    OnesCount64 a < OnesCount64 b := by
  unfold OnesCount64
  apply filter_length_lt _ _ _ _ i (List.mem_range.2 hi) hb ha
  intro j hj
  exact h j (List.mem_range.1 hj)

theorem OnesCount_le (u v : Uint128)
    (h : ∀ c, c < 128 → u.testBit c = true → v.testBit c = true) :
    u.OnesCount ≤ v.OnesCount := by
  unfold Uint128.OnesCount
  have h1 : OnesCount64 u.Hi ≤ OnesCount64 v.Hi := by
    apply OnesCount64_le
    intro i hi
    have := h (i + 64) (by omega)
    unfold Uint128.testBit at this
    have h64 : ¬ (i + 64 < 64) := by omega
    simpa [h64] using this
  have h2 : OnesCount64 u.Lo ≤ OnesCount64 v.Lo := by
    apply OnesCount64_le
    intro i hi
    have := h i (by omega)
    unfold Uint128.testBit at this
    simpa [hi] using this
  omega

theorem OnesCount_lt (u v : Uint128)
    (h : ∀ c, c < 128 → u.testBit c = true → v.testBit c = true)
    (c : Nat) (hc : c < 128) (hv : v.testBit c = true) (hu : u.testBit c = false) :
    u.OnesCount < v.OnesCount := by
  unfold Uint128.OnesCount
  have h1 : ∀ i, i < 64 → u.Hi.testBit i = true → v.Hi.testBit i = true := by
    intro i hi
    have := h (i + 64) (by omega)
    unfold Uint128.testBit at this
    have h64 : ¬ (i + 64 < 64) := by omega
    simpa [h64] using this
  have h2 : ∀ i, i < 64 → u.Lo.testBit i = true → v.Lo.testBit i = true := by
    intro i hi
    have := h i (by omega)
    unfold Uint128.testBit at this
    simpa [hi] using this
  unfold Uint128.testBit at hv hu
  by_cases h64 : c < 64
  · simp only [h64, if_true] at hv hu
    have := OnesCount64_lt u.Lo v.Lo h2 c h64 hv hu
    have := OnesCount64_le u.Hi v.Hi h1
    omega
  · simp only [h64, if_false] at hv hu
    have := OnesCount64_lt u.Hi v.Hi h1 (c - 64) (by omega) hv hu
    have := OnesCount64_le u.Lo v.Lo h2
    omega

theorem OnesCount_And_le (u v : Uint128) : (u.And v).OnesCount ≤ u.OnesCount := by
  apply OnesCount_le
  intro c _ h
  rw [Uint128.testBit_And] at h
  cases hu : u.testBit c
  · rw [hu] at h; cases h
  · rfl

/-- A non-zero mask within the 81 cells has a bit. -/
theorem Small_exists_bit (u : Uint128) (hu : Small u) (h : u.IsZero = false) :
    ∃ c, c < 81 ∧ u.testBit c = true := by
  by_contra hno
  have : u.IsZero = true := by
    rw [Small_IsZero_iff u hu]
    intro c hc
    cases hb : u.testBit c
    · rfl
    · exact absurd ⟨c, hc, hb⟩ hno
  rw [this] at h; cases h

theorem candidate_count_le (s s1 : State)
    (h : ∀ d, 1 ≤ d → d ≤ 9 → (s1.locations d).OnesCount ≤ (s.locations d).OnesCount) :
    candidate_count s1 ≤ candidate_count s := by
  unfold candidate_count
  apply List.sum_le_sum
  intro d hd
  exact h d ((mem_digits d).1 hd).1 ((mem_digits d).1 hd).2

theorem candidate_count_lt (s s1 : State)
    (h : ∀ d, 1 ≤ d → d ≤ 9 → (s1.locations d).OnesCount ≤ (s.locations d).OnesCount)
    (d : Nat) (hd : 1 ≤ d ∧ d ≤ 9)
    (hlt : (s1.locations d).OnesCount < (s.locations d).OnesCount) :
    candidate_count s1 < candidate_count s := by
  unfold candidate_count
  apply List.sum_lt_sum
  · intro d hd
    exact h d ((mem_digits d).1 hd).1 ((mem_digits d).1 hd).2
  · exact ⟨d, (mem_digits d).2 hd, hlt⟩

theorem place_candidate_count_le (d c : Nat) (bit : Uint128) (s : State) :
    candidate_count (place d c bit s) ≤ candidate_count s := by
  apply candidate_count_le
  intro d2 h1 h2
  rw [place_locations_eq, if_pos ⟨h1, h2⟩]
  by_cases h : d2 ≠ d
  · rw [if_pos h]; exact OnesCount_And_le _ _
  · rw [if_neg h]; exact OnesCount_And_le _ _

theorem unplace_candidate_count_le (d : Nat) (m : Uint128) (s : State) :
    candidate_count (unplace d m s) ≤ candidate_count s := by
  apply candidate_count_le
  intro d2 _ _
  rw [unplace_locations_eq]
  by_cases h : d2 = d ∧ ((s.locations d).And m).IsZero = false
  · rw [if_pos h]; exact OnesCount_And_le _ _
  · rw [if_neg h]

/-- Removing a mask within the 81 cells that meets the candidates of the
digit strictly lowers the candidate-bit count. -/
theorem unplace_candidate_count_lt (d : Nat) (hd : 1 ≤ d ∧ d ≤ 9) (m : Uint128) (hm : Small m)
    (s : State) (hz : ((s.locations d).And m).IsZero = false) :
    candidate_count (unplace d m s) < candidate_count s := by
  apply candidate_count_lt s _ _ d hd
  · rw [unplace_locations_eq, if_pos ⟨rfl, hz⟩]
    obtain ⟨c, hc, hb⟩ := Small_exists_bit _ (Small_And_right _ _ hm) hz
    rw [Uint128.testBit_And] at hb
    have hb1 : (s.locations d).testBit c = true := by
      cases h : (s.locations d).testBit c
      · rw [h] at hb; cases hb
      · rfl
    have hb2 : m.testBit c = true := by
      rw [hb1] at hb; simpa using hb
    apply OnesCount_lt _ _ _ c (by omega) hb1
    · rw [Uint128.testBit_And, Uint128.testBit_Not _ _ (by omega), hb2, hb1]; rfl
    · intro c2 _ h
      rw [Uint128.testBit_And] at h
      cases hu : (s.locations d).testBit c2
      · rw [hu] at h; cases h
      · rfl
  · intro d2 _ _
    rw [unplace_locations_eq]
    by_cases h : d2 = d ∧ ((s.locations d).And m).IsZero = false
    · rw [if_pos h]; exact OnesCount_And_le _ _
    · rw [if_neg h]

theorem place_undetermined_lt (d c : Nat) (bit : Uint128) (s : State) (hd : d ≠ 0)
    (hc : c < 81) (h0 : s.contents c = 0) :
    undetermined_count (place d c bit s) < undetermined_count s := by
  unfold undetermined_count
  apply filter_length_lt _ _ _ _ c (List.mem_range.2 hc)
  · simp [h0]
  · simp [place_contents_eq, hd]
  · intro x _ hx
    rw [place_contents_eq] at hx
    by_cases hxc : x = c
    · rw [if_pos hxc] at hx
      simp only [decide_eq_true_eq] at hx
      exact absurd hx hd
    · rw [if_neg hxc] at hx; exact hx

theorem undetermined_count_le_81 (s : State) : undetermined_count s ≤ 81 := by
  unfold undetermined_count
  calc ((List.range 81).filter fun c => s.contents c = 0).length
      ≤ (List.range 81).length := List.length_filter_le _ _
    _ = 81 := List.length_range 81

theorem count_content_le_81 (s : State) : count_content s ≤ 81 := by
  unfold count_content
  calc ((List.range (Nine * Nine)).filter fun cell => s.contents cell > 0).length
      ≤ (List.range (Nine * Nine)).length := List.length_filter_le _ _
    _ = 81 := List.length_range 81

end sudoku_solver

open uint128 sudoku_constants sudoku_solver

namespace sudoku_solver

theorem Advance_trans (s s1 s2 : State) (h1 : Advance s s1) (h2 : Advance s1 s2) :
    Advance s s2 where
  inv := h2.inv
  prog := h2.prog
  keep := by
    intro c hc h0
    have e := h1.keep c hc h0
    rw [h2.keep c hc (by rw [e]; exact h0), e]
  und := le_trans h2.und h1.und
  cand := le_trans h2.cand h1.cand
  strict := by
    rcases h1.strict with ⟨c, hc, h0, hne, hlt⟩ | hlt
    · left
      refine ⟨c, hc, h0, ?_, lt_of_le_of_lt h2.und hlt⟩
      rw [h2.keep c hc hne]; exact hne
    · right; exact lt_of_le_of_lt h2.cand hlt

/-- Placing a digit in an undetermined cell is progress. -/
theorem place_advance (s : State) (hs : Inv s) (d c : Nat) (hd : 1 ≤ d ∧ d ≤ 9) (hc : c < 81)
    (h0 : s.contents c = 0) : Advance s (place d c (Powers.getD c uint128.Zero) s) where
  inv := Inv_place s hs d c hd.2 hc
  prog := rfl
  keep := by
    intro x _ hx
    rw [place_contents_eq]
    by_cases hxc : x = c
    · subst hxc; exact absurd h0 hx
    · rw [if_neg hxc]
  und := le_of_lt (place_undetermined_lt d c _ s (by omega) hc h0)
  cand := place_candidate_count_le d c _ s
  strict := by
    left
    refine ⟨c, hc, h0, ?_, place_undetermined_lt d c _ s (by omega) hc h0⟩
    rw [place_contents_eq, if_pos rfl]; omega

/-- The cell of a hidden single is undetermined. -/
theorem Hidden_cell_undetermined (s : State) (hs : Inv s) (d g c : Nat) (hd : 1 ≤ d ∧ d ≤ 9)
    (hg : g < 27) (hc : c < 81) (hf : s.unit_solved d g = false)
    (hm : (s.locations d).And (Group_masks.getD g uint128.Zero) =
      Powers.getD c uint128.Zero) : s.contents c = 0 := by
  have hb : hasBit ((s.locations d).And (Group_masks.getD g uint128.Zero)) c = true := by
    rw [hm, hasBit_Powers c c hc hc]; simp
  rw [hasBit_And] at hb
  have hb1 : hasBit (s.locations d) c = true := by
    cases h : hasBit (s.locations d) c
    · rw [h] at hb; cases hb
    · rfl
  have hb2 : in_group g c = true := by
    rw [hb1, Bool.true_and] at hb; exact hb
  by_contra h0
  by_cases he : d = s.contents c
  · have := hs.flag c hc h0
    rcases in_group_unit_table c hc g hg hb2 with e | e | e
    · have h3 := this 0 (by omega); rw [← he, ← e, hf] at h3; cases h3
    · have h3 := this 1 (by omega); rw [← he, ← e, hf] at h3; cases h3
    · have h3 := this 2 (by omega); rw [← he, ← e, hf] at h3; cases h3
  · have := hs.excl c hc h0 d hd.1 hd.2 he
    rw [this] at hb1; cases hb1

theorem Hidden_advance (s s1 : State) (hs : Inv s) (h : Hidden s s1) : Advance s s1 := by
  obtain ⟨d, g, c, hd1, hd2, hg, hc, hf, hm, rfl⟩ := h
  exact place_advance s hs d c ⟨hd1, hd2⟩ hc
    (Hidden_cell_undetermined s hs d g c ⟨hd1, hd2⟩ hg hc hf hm)

theorem Naked_advance (s s1 : State) (hs : Inv s) (h : Naked s s1) : Advance s s1 := by
  obtain ⟨d, c, hd1, hd2, hc, h0, _, rfl⟩ := h
  exact place_advance s hs d c ⟨hd1, hd2⟩ hc h0

theorem land_absorb (a b c : Nat) : a &&& ((b &&& a) &&& c) = (b &&& a) &&& c := by
  apply Nat.eq_of_testBit_eq
  intro i
  simp only [Nat.testBit_and]
  cases a.testBit i <;> cases b.testBit i <;> cases c.testBit i <;> rfl

theorem And_absorb (u v w : Uint128) : u.And ((v.And u).And w) = (v.And u).And w := by
  rw [Uint128.eq_iff]
  exact ⟨land_absorb _ _ _, land_absorb _ _ _⟩

theorem Pointing_advance (s s1 : State) (hs : Inv s) (h : Pointing s s1) : Advance s s1 := by
  obtain ⟨d, g1, g2, hd1, hd2, _, _, _, hz, rfl⟩ := h
  have hz2 : ((s.locations d).And (((Group_masks.getD g2 uint128.Zero).And (s.locations d)).And
      ((s.locations d).And (Group_masks.getD g1 uint128.Zero)).Not)).IsZero = false := by
    rw [And_absorb]; exact hz
  have hsmall : Small (((Group_masks.getD g2 uint128.Zero).And (s.locations d)).And
      ((s.locations d).And (Group_masks.getD g1 uint128.Zero)).Not) :=
    Small_And_left _ _ (Small_And_left _ _ (Group_masks_small g2))
  refine
    { inv := Inv_unplace s hs _ _
      prog := by rw [unplace_progress_eq, hz2]; rfl
      keep := by intro c _ _; rw [unplace_contents_eq]
      und := by unfold undetermined_count; rw [unplace_contents_eq]
      cand := unplace_candidate_count_le _ _ _
      strict := Or.inr (unplace_candidate_count_lt d ⟨hd1, hd2⟩ _ hsmall s hz2) }

/-- Steps of a rule from a state with the invariant: nothing happened, or
there was progress. -/
theorem chain_advance (R : State → State → Prop)
    (hR : ∀ s s1, Inv s → R s s1 → Advance s s1) (s s1 : State)
    (h : Relation.ReflTransGen R s s1) (hs : Inv s) : s1 = s ∨ Advance s s1 := by
  induction h with
  | refl => exact Or.inl rfl
  | tail _ hstep ih =>
    rcases ih with e | hadv
    · subst e; exact Or.inr (hR _ _ hs hstep)
    · exact Or.inr (Advance_trans _ _ _ hadv (hR _ _ hadv.inv hstep))

theorem Advance_of_progress_false (s s1 : State) (h : Advance { s with progress := false } s1) :
    Advance s s1 where
  inv := h.inv
  prog := h.prog
  keep := h.keep
  und := h.und
  cand := h.cand
  strict := h.strict

end sudoku_solver

open uint128 sudoku_constants sudoku_solver

namespace sudoku_solver

theorem Step_progress (s : State) (b : Bool) : Step s { s with progress := b } :=
  Or.inr (Or.inr (Or.inr ⟨b, rfl⟩))

theorem Steps_of_chain (R : State → State → Prop) (hR : ∀ s s1, R s s1 → Step s s1)
    (s s1 : State) (h : Relation.ReflTransGen R { s with progress := false } s1) :
    Relation.ReflTransGen Step s s1 :=
  Relation.ReflTransGen.head (Step_progress s false) (Relation.ReflTransGen.mono hR h)

theorem Step_Inv (s s1 : State) (hs : Inv s) (h : Step s s1) : Inv s1 := by
  rcases h with h | h | h | ⟨b, rfl⟩
  · exact (Hidden_advance s s1 hs h).inv
  · exact (Naked_advance s s1 hs h).inv
  · exact (Pointing_advance s s1 hs h).inv
  · exact Inv_progress s hs b

/-- A property that every step keeps in a state with the invariant holds
after any number of steps. -/
theorem Steps_preserve (P : State → Prop)
    (hP : ∀ s s1, Inv s → P s → Step s s1 → P s1) (s s1 : State)
    (h : Relation.ReflTransGen Step s s1) (hs : Inv s) (hp : P s) : Inv s1 ∧ P s1 := by
  induction h with
  | refl => exact ⟨hs, hp⟩
  | tail _ hstep ih => exact ⟨Step_Inv _ _ ih.1 hstep, hP _ _ ih.1 ih.2 hstep⟩

theorem Steps_Inv (s s1 : State) (h : Relation.ReflTransGen Step s s1) (hs : Inv s) :
    Inv s1 :=
  (Steps_preserve (fun _ => True) (fun _ _ _ _ _ => trivial) s s1 h hs trivial).1

/-- The outcomes of `locate` in a state with the invariant, with the steps
that lead to the state it leaves. -/
theorem locate_outcome (s : State) (hs : Inv s) :
    (∃ s1, Relation.ReflTransGen Step s s1 ∧ Stuck s1 ∧
      locate s = .panic Panic.underflow s1) ∨
    locate s = .ok false { s with progress := false } ∨
    (∃ s1, Relation.ReflTransGen Step s s1 ∧ locate s = .ok true s1 ∧ Advance s s1) := by
  obtain ⟨s1, hchain, hres⟩ := locate_spec s
  have hsteps := Steps_of_chain Hidden (fun _ _ h => Or.inl h) s s1 hchain
  rcases hres with h | h
  · rcases chain_advance Hidden Hidden_advance _ _ hchain (Inv_progress s hs false) with e | hadv
    · right; left; rw [h, e]
    · right; right
      exact ⟨s1, hsteps, by rw [h, hadv.prog], Advance_of_progress_false s s1 hadv⟩
  · exact Or.inl ⟨s1, hsteps, h.1, h.2⟩

theorem single_outcome (s : State) (hs : Inv s) :
    single s = .ok false { s with progress := false } ∨
    (∃ s1, Relation.ReflTransGen Step s s1 ∧ single s = .ok true s1 ∧ Advance s s1) := by
  obtain ⟨s1, hchain, h⟩ := single_spec s
  have hsteps := Steps_of_chain Naked (fun _ _ h => Or.inr (Or.inl h)) s s1 hchain
  rcases chain_advance Naked Naked_advance _ _ hchain (Inv_progress s hs false) with e | hadv
  · left; rw [h, e]
  · right
    exact ⟨s1, hsteps, by rw [h, hadv.prog], Advance_of_progress_false s s1 hadv⟩

theorem align_outcome (s : State) (hs : Inv s) :
    align s = .ok false { s with progress := false } ∨
    (∃ s1, Relation.ReflTransGen Step s s1 ∧ align s = .ok true s1 ∧ Advance s s1) := by
  obtain ⟨s1, hchain, h⟩ := align_spec s
  have hsteps := Steps_of_chain Pointing (fun _ _ h => Or.inr (Or.inr (Or.inl h))) s s1 hchain
  rcases chain_advance Pointing Pointing_advance _ _ hchain (Inv_progress s hs false) with
    e | hadv
  · left; rw [h, e]
  · right
    exact ⟨s1, hsteps, by rw [h, hadv.prog], Advance_of_progress_false s s1 hadv⟩

theorem locate_progress_irrelevant (s : State) (b : Bool) :
    locate { s with progress := b } = locate s := rfl

theorem single_progress_irrelevant (s : State) (b : Bool) :
    single { s with progress := b } = single s := rfl

theorem align_progress_irrelevant (s : State) (b : Bool) :
    align { s with progress := b } = align s := rfl

/-- The outcomes of one pass of `Solve` over the three rules. -/
theorem Solve_pass_outcome (s : State) (hs : Inv s) :
    (∃ s1, Relation.ReflTransGen Step s s1 ∧ Stuck s1 ∧
      Solve_pass s = .panic Panic.underflow s1) ∨
    (Solve_pass s = .ok false { s with progress := false } ∧
      Quiescent { s with progress := false }) ∨
    (∃ s1, Relation.ReflTransGen Step s s1 ∧ Solve_pass s = .ok true s1 ∧ Advance s s1) := by
  unfold Solve_pass
  rcases locate_outcome s hs with ⟨s1, h1, hst, h2⟩ | h | ⟨s1, h1, h2, h3⟩
  · left; exact ⟨s1, h1, hst, by rw [h2]⟩
  · rw [h]
    simp only []
    rw [single_progress_irrelevant]
    rcases single_outcome s hs with h' | ⟨s1, h1, h2, h3⟩
    · rw [h']
      simp only []
      rw [align_progress_irrelevant]
      rcases align_outcome s hs with h'' | ⟨s1, h1, h2, h3⟩
      · right; left
        refine ⟨h'', ?_, ?_, ?_⟩
        · rw [locate_progress_irrelevant]; exact h
        · rw [single_progress_irrelevant]; exact h'
        · rw [align_progress_irrelevant]; exact h''
      · right; right; exact ⟨s1, h1, h2, h3⟩
    · right; right; exact ⟨s1, h1, by rw [h2], h3⟩
  · right; right; exact ⟨s1, h1, by rw [h2], h3⟩

/-- The loop of `Solve` ends within its bound: by the underflow panic, with
all 81 cells fixed, or in a state in which no rule makes progress. -/
theorem Solve_loop_outcome : ∀ (n : Nat) (s : State), Inv s →
    ((s.progress = true ∧ undetermined_count s + candidate_count s + 2 ≤ n) ∨
      (s.progress = false ∧ Quiescent s ∧ 1 ≤ n)) →
    ∃ s1, Relation.ReflTransGen Step s s1 ∧
      ((Stuck s1 ∧ Solve_loop n s = .panic Panic.underflow s1) ∨
        (Solve_loop n s = .ok (count_content s1) s1 ∧
          (count_content s1 = 81 ∨ (count_content s1 ≠ 81 ∧ Quiescent s1)))) := by
  intro n
  induction n with
  | zero =>
    intro s _ h
    rcases h with ⟨_, h⟩ | ⟨_, _, h⟩ <;> omega
  | succ n ih =>
    intro s hs h
    unfold Solve_loop
    rcases h with ⟨hp, hfuel⟩ | ⟨hp, hq, _⟩
    · rw [if_pos hp]
      simp only []
      by_cases h81 : count_content s = 81
      · rw [if_pos h81]
        exact ⟨s, Relation.ReflTransGen.refl, Or.inr ⟨by rw [h81], Or.inl h81⟩⟩
      · rw [if_neg h81]
        rcases Solve_pass_outcome s hs with ⟨s1, h1, hst, h2⟩ | ⟨h1, h2⟩ | ⟨s1, h1, h2, h3⟩
        · rw [h2]; exact ⟨s1, h1, Or.inl ⟨hst, rfl⟩⟩
        · rw [h1]
          simp only []
          obtain ⟨s2, hsteps, hres⟩ := ih { s with progress := false } (Inv_progress s hs false)
            (Or.inr ⟨rfl, h2, by omega⟩)
          exact ⟨s2, Relation.ReflTransGen.head (Step_progress s false) hsteps, hres⟩
        · rw [h2]
          simp only []
          have hlt : undetermined_count s1 + candidate_count s1 <
              undetermined_count s + candidate_count s := by
            have := h3.und
            have := h3.cand
            rcases h3.strict with ⟨_, _, _, _, hlt⟩ | hlt <;> omega
          obtain ⟨s2, hsteps, hres⟩ := ih s1 h3.inv (Or.inl ⟨h3.prog, by omega⟩)
          exact ⟨s2, h1.trans hsteps, hres⟩
    · have hp' : ¬ (s.progress = true) := by rw [hp]; simp
      rw [if_neg hp']
      by_cases h81 : count_content s = 81
      · exact ⟨s, Relation.ReflTransGen.refl, Or.inr ⟨rfl, Or.inl h81⟩⟩
      · exact ⟨s, Relation.ReflTransGen.refl, Or.inr ⟨rfl, Or.inr ⟨h81, hq⟩⟩⟩

end sudoku_solver

open uint128 sudoku_constants sudoku_solver

namespace sudoku_solver

/-- The loading loop keeps the invariant. -/
theorem load_Inv : ∀ (chars : List Nat) (cell : Nat) (s : State), Inv s →
    cell + chars.length ≤ 81 → Inv (load chars cell s) := by
  intro chars
  induction chars with
  | nil => intro cell s hs _; exact hs
  | cons ch rest ih =>
    intro cell s hs hlen
    unfold load
    simp only [List.length_cons] at hlen
    by_cases h : 48 ≤ ch ∧ ch ≤ 57
    · rw [if_pos h]
      exact ih (cell + 1) _ (Inv_place s hs (ch - 48) cell (by omega) (by omega)) (by omega)
    · rw [if_neg h]
      exact ih (cell + 1) s hs (by omega)

theorem load_candidate_count_le : ∀ (chars : List Nat) (cell : Nat) (s : State),
    candidate_count (load chars cell s) ≤ candidate_count s := by
  intro chars
  induction chars with
  | nil => intro cell s; exact le_refl _
  | cons ch rest ih =>
    intro cell s
    unfold load
    by_cases h : 48 ≤ ch ∧ ch ≤ 57
    · rw [if_pos h]
      exact le_trans (ih (cell + 1) _) (place_candidate_count_le _ _ _ _)
    · rw [if_neg h]
      exact ih (cell + 1) s

set_option maxRecDepth 100000 in
theorem ALL_ONE_OnesCount : ALL_ONE.OnesCount = 81 := by decide!

theorem reset_locations (s : State) (d : Nat) (hd : 1 ≤ d ∧ d ≤ 9) :
    (reset s).locations d = ALL_ONE := by
  simp only [reset, Nine]
  rw [if_pos hd]

theorem reset_contents (s : State) (c : Nat) (hc : c < 81) : (reset s).contents c = 0 := by
  simp only [reset, Nine]
  rw [if_pos hc]

theorem reset_unit_solved (s : State) (d g : Nat) (hd : 1 ≤ d ∧ d ≤ 9) (hg : g < 27) :
    (reset s).unit_solved d g = false := by
  simp only [reset, Nine]
  rw [if_pos ⟨hd.1, hd.2, hg⟩]

theorem candidate_count_reset (s : State) : candidate_count (reset s) = 729 := by
  unfold candidate_count
  have : digits.map (fun d => ((reset s).locations d).OnesCount) = digits.map (fun _ => 81) := by
    apply List.map_congr_left
    intro d hd
    rw [reset_locations s d ((mem_digits d).1 hd), ALL_ONE_OnesCount]
  rw [this]
  rfl

theorem load_length_fuel (puzzle : List Nat) (s0 : State) :
    undetermined_count (load (puzzle.take 81) 0 (reset s0)) +
      candidate_count (load (puzzle.take 81) 0 (reset s0)) + 2 ≤ pass_bound := by
  have h1 := undetermined_count_le_81 (load (puzzle.take 81) 0 (reset s0))
  have h2 := load_candidate_count_le (puzzle.take 81) 0 (reset s0)
  rw [candidate_count_reset] at h2
  have : pass_bound = 812 := rfl
  omega

theorem loaded_Inv (puzzle : List Nat) (s0 : State) :
    Inv (load (puzzle.take 81) 0 (reset s0)) := by
  apply load_Inv _ _ _ (Inv_reset s0)
  rw [List.length_take]
  omega

/-- The outcomes of `Start_solver` on an input of at least 81 symbols: the
underflow panic, or a return of the number of fixed cells, which is 81 or
belongs to a state in which no rule makes progress. -/
theorem Start_solver_outcome (puzzle : List Nat) (s0 : State) (hlen : 81 ≤ puzzle.length) :
    ∃ s1, Relation.ReflTransGen Step (load (puzzle.take 81) 0 (reset s0)) s1 ∧
      ((Stuck s1 ∧ Start_solver puzzle s0 = .panic Panic.underflow s1) ∨
        (Start_solver puzzle s0 = .ok (count_content s1) s1 ∧
          (count_content s1 = 81 ∨ (count_content s1 ≠ 81 ∧ Quiescent s1)))) := by
  have hinv := loaded_Inv puzzle s0
  obtain ⟨s1, hsteps, hres⟩ := Solve_loop_outcome pass_bound
    { load (puzzle.take 81) 0 (reset s0) with progress := true }
    (Inv_progress _ hinv true) (Or.inl ⟨rfl, load_length_fuel puzzle s0⟩)
  refine ⟨s1, Relation.ReflTransGen.head (Step_progress _ true) hsteps, ?_⟩
  unfold Start_solver
  have hl : ¬ puzzle.length < 81 := by omega
  simp only [hl, if_false]
  unfold Solve
  rcases hres with ⟨hst, h⟩ | ⟨h, h2⟩
  · left; rw [h]; exact ⟨hst, rfl⟩
  · right; rw [h]; exact ⟨rfl, h2⟩

end sudoku_solver

open uint128 sudoku_constants sudoku_solver

namespace sudoku_solver

theorem mem_group_cells (g c : Nat) : c ∈ group_cells g ↔ c < 81 ∧ in_group g c = true := by
  unfold group_cells
  rw [List.mem_filter, List.mem_range]

theorem digits_nodup : digits.Nodup := List.nodup_range' _ _

/-- In a valid grid every cell holds a digit. -/
theorem ValidGrid_digit (grid : Nat → Nat) (hv : ValidGrid grid) (c : Nat) (hc : c < 81) :
    1 ≤ grid c ∧ grid c ≤ 9 := by
  obtain ⟨hg, hin⟩ := unit_of_table c hc 1 (by decide)
  have hmem : grid c ∈ (group_cells (unit_of c 1)).map grid :=
    List.mem_map_of_mem _ ((mem_group_cells _ _).2 ⟨hc, hin⟩)
  exact (mem_digits _).1 ((hv _ hg).mem_iff.1 hmem)

/-- In a valid grid two cells of a group with the same digit are one cell. -/
theorem ValidGrid_inj (grid : Nat → Nat) (hv : ValidGrid grid) (g : Nat) (hg : g < 27)
    (c c2 : Nat) (hc : c < 81) (hc2 : c2 < 81) (h1 : in_group g c = true)
    (h2 : in_group g c2 = true) (he : grid c = grid c2) : c = c2 := by
  have hnd : ((group_cells g).map grid).Nodup := (hv g hg).nodup_iff.2 digits_nodup
  exact List.inj_on_of_nodup_map hnd ((mem_group_cells _ _).2 ⟨hc, h1⟩)
    ((mem_group_cells _ _).2 ⟨hc2, h2⟩) he

/-- In a valid grid every group holds every digit. -/
theorem ValidGrid_surj (grid : Nat → Nat) (hv : ValidGrid grid) (g : Nat) (hg : g < 27)
    (d : Nat) (hd : 1 ≤ d ∧ d ≤ 9) : ∃ c, c < 81 ∧ in_group g c = true ∧ grid c = d := by
  have hmem : d ∈ (group_cells g).map grid := (hv g hg).mem_iff.2 ((mem_digits d).2 hd)
  obtain ⟨c, hc, e⟩ := List.mem_map.1 hmem
  exact ⟨c, ((mem_group_cells _ _).1 hc).1, ((mem_group_cells _ _).1 hc).2, e⟩

/-- In a valid grid neighbouring cells hold different digits. -/
theorem ValidGrid_neighbour (grid : Nat → Nat) (hv : ValidGrid grid) (c c2 : Nat)
    (hc : c < 81) (hc2 : c2 < 81) (hn : is_neighbour c c2 = true) : grid c ≠ grid c2 := by
  intro he
  have hne : c ≠ c2 := by
    intro e; subst e
    rw [neighbour_irrefl_table c hc] at hn; cases hn
  apply hne
  obtain ⟨_, h3⟩ := neighbour_table c hc c2 hc2 hn
  rcases h3 with h | h | h
  · exact ValidGrid_inj grid hv _ (unit_of_table c hc 0 (by decide)).1 c c2 hc hc2
      (unit_of_table c hc 0 (by decide)).2 h he
  · exact ValidGrid_inj grid hv _ (unit_of_table c hc 1 (by decide)).1 c c2 hc hc2
      (unit_of_table c hc 1 (by decide)).2 h he
  · exact ValidGrid_inj grid hv _ (unit_of_table c hc 2 (by decide)).1 c c2 hc hc2
      (unit_of_table c hc 2 (by decide)).2 h he

theorem bool_and_true {a b : Bool} (h : (a && b) = true) : a = true ∧ b = true := by
  cases a <;> cases b <;> simp_all

/-- Placing the digit of the grid keeps the grid consistent with the state. -/
theorem Consistent_place (grid : Nat → Nat) (hv : ValidGrid grid) (s : State)
    (hs : Consistent grid s) (d c : Nat) (hc : c < 81) (hd : grid c = d) :
    Consistent grid (place d c (Powers.getD c uint128.Zero) s) := by
  constructor
  · intro x hx
    rw [place_hasBit d c s hc (grid x) x hx (ValidGrid_digit grid hv x hx), hs.1 x hx,
      Bool.true_and]
    by_cases h : grid x ≠ d
    · rw [if_pos h]
      have : x ≠ c := by intro e; apply h; rw [e, hd]
      simp [this]
    · rw [if_neg h]
      have hxd : grid x = d := by simpa using h
      cases hn : is_neighbour c x
      · rfl
      · exact absurd (by rw [hd, hxd]) (ValidGrid_neighbour grid hv c x hc hx hn)
  · intro x hx hx0
    rw [place_contents_eq] at hx0 ⊢
    by_cases hxc : x = c
    · rw [if_pos hxc, hxc, hd]
    · rw [if_neg hxc] at hx0 ⊢
      exact hs.2 x hx hx0

theorem Consistent_progress (grid : Nat → Nat) (s : State) (hs : Consistent grid s) (b : Bool) :
    Consistent grid { s with progress := b } := hs

theorem Consistent_Hidden (grid : Nat → Nat) (hv : ValidGrid grid) (s s1 : State)
    (hs : Consistent grid s) (h : Hidden s s1) : Consistent grid s1 := by
  obtain ⟨d, g, c, hd1, hd2, hg, hc, _, hm, rfl⟩ := h
  obtain ⟨x, hx, hin, hgx⟩ := ValidGrid_surj grid hv g hg d ⟨hd1, hd2⟩
  have hb : hasBit ((s.locations d).And (Group_masks.getD g uint128.Zero)) x = true := by
    rw [hasBit_And]
    have := hs.1 x hx
    rw [hgx] at this
    rw [this]; exact hin
  rw [hm, hasBit_Powers c x hc hx] at hb
  have hxc : x = c := by simpa using hb
  subst hxc
  exact Consistent_place grid hv s hs d x hx hgx

theorem Consistent_Naked (grid : Nat → Nat) (hv : ValidGrid grid) (s s1 : State)
    (hs : Consistent grid s) (h : Naked s s1) : Consistent grid s1 := by
  obtain ⟨d, c, _, _, hc, _, hu, rfl⟩ := h
  have hd := ValidGrid_digit grid hv c hc
  have := (hu (grid c) hd.1 hd.2).1 (hs.1 c hc)
  exact Consistent_place grid hv s hs d c hc this

theorem Consistent_Pointing (grid : Nat → Nat) (hv : ValidGrid grid) (s s1 : State)
    (hs : Consistent grid s) (h : Pointing s s1) : Consistent grid s1 := by
  obtain ⟨d, g1, g2, hd1, hd2, hg1, hg2, hsub, hz, rfl⟩ := h
  constructor
  · intro x hx
    rw [unplace_locations_eq]
    by_cases hcond : grid x = d ∧ ((s.locations d).And
        (((Group_masks.getD g2 uint128.Zero).And (s.locations d)).And
          ((s.locations d).And (Group_masks.getD g1 uint128.Zero)).Not)).IsZero = false
    · rw [if_pos hcond]
      have hbx := hs.1 x hx
      rw [hasBit_And, hbx, Bool.true_and, hasBit_Not _ _ hx, hasBit_And, hasBit_And,
        hasBit_Not _ _ hx, hasBit_And]
      rw [hcond.1] at hbx
      rw [hbx]
      simp only [Bool.and_true, Bool.true_and, Bool.not_not]
      -- the cell of `d` in `g1` lies in `g2`, so it is `x` if `x` is in `g2`
      obtain ⟨y, hy, hin1, hgy⟩ := ValidGrid_surj grid hv g1 hg1 d ⟨hd1, hd2⟩
      have hby := hs.1 y hy
      rw [hgy] at hby
      have hin2 : in_group g2 y = true := by
        have : hasBit (((s.locations d).And (Group_masks.getD g1 uint128.Zero)).And
            (Group_masks.getD g2 uint128.Zero)) y = true := by
          rw [hsub, hasBit_And, hby]; exact hin1
        rw [hasBit_And] at this
        exact (bool_and_true this).2
      cases hx2 : hasBit (Group_masks.getD g2 uint128.Zero) x
      · rfl
      · have hxy : x = y := ValidGrid_inj grid hv g2 hg2 x y hx hy hx2 hin2
          (by rw [hcond.1, hgy])
        subst hxy
        have : hasBit (Group_masks.getD g1 uint128.Zero) x = true := hin1
        rw [this]; rfl
    · rw [if_neg hcond]; exact hs.1 x hx
  · intro x hx hx0
    rw [unplace_contents_eq] at hx0 ⊢
    exact hs.2 x hx hx0

theorem Consistent_Step (grid : Nat → Nat) (hv : ValidGrid grid) (s s1 : State)
    (hs : Consistent grid s) (h : Step s s1) : Consistent grid s1 := by
  rcases h with h | h | h | ⟨b, rfl⟩
  · exact Consistent_Hidden grid hv s s1 hs h
  · exact Consistent_Naked grid hv s s1 hs h
  · exact Consistent_Pointing grid hv s s1 hs h
  · exact hs

/-- A state that is consistent with a valid grid is not stuck. -/
theorem Consistent_not_Stuck (grid : Nat → Nat) (hv : ValidGrid grid) (s : State)
    (hs : Consistent grid s) : ¬ Stuck s := by
  rintro ⟨d, g, hd1, hd2, hg, _, hm⟩
  obtain ⟨x, hx, hin, hgx⟩ := ValidGrid_surj grid hv g hg d ⟨hd1, hd2⟩
  have hb : hasBit ((s.locations d).And (Group_masks.getD g uint128.Zero)) x = true := by
    rw [hasBit_And]
    have := hs.1 x hx
    rw [hgx] at this
    rw [this]; exact hin
  rw [hm] at hb
  simp [hasBit, uint128.Zero, Uint128.And, Uint128.IsZero] at hb

set_option maxRecDepth 100000 in
theorem ALL_ONE_hasBit_table : ∀ c < 81, hasBit ALL_ONE c = true := by decide!

theorem Consistent_reset (grid : Nat → Nat) (hv : ValidGrid grid) (s : State) :
    Consistent grid (reset s) := by
  constructor
  · intro c hc
    rw [reset_locations s _ (ValidGrid_digit grid hv c hc)]
    exact ALL_ONE_hasBit_table c hc
  · intro c hc h0
    exact absurd (reset_contents s c hc) h0

/-- The loading loop keeps a grid consistent that agrees with the symbols. -/
theorem Consistent_load (grid : Nat → Nat) (hv : ValidGrid grid) :
    ∀ (chars : List Nat) (cell : Nat) (s : State), Consistent grid s →
      cell + chars.length ≤ 81 →
      (∀ i ch, chars.get? i = some ch → 48 ≤ ch → ch ≤ 57 → grid (cell + i) = ch - 48) →
      Consistent grid (load chars cell s) := by
  intro chars
  induction chars with
  | nil => intro cell s hs _ _; exact hs
  | cons ch rest ih =>
    intro cell s hs hlen hag
    unfold load
    simp only [List.length_cons] at hlen
    have hrest : ∀ i ch2, rest.get? i = some ch2 → 48 ≤ ch2 → ch2 ≤ 57 →
        grid (cell + 1 + i) = ch2 - 48 := by
      intro i ch2 h1 h2 h3
      have := hag (i + 1) ch2 (by simpa using h1) h2 h3
      rw [← this]; congr 1; omega
    by_cases h : 48 ≤ ch ∧ ch ≤ 57
    · rw [if_pos h]
      have hg := hag 0 ch (by simp) h.1 h.2
      exact ih (cell + 1) _ (Consistent_place grid hv s hs (ch - 48) cell (by omega) hg)
        (by omega) hrest
    · rw [if_neg h]
      exact ih (cell + 1) s hs (by omega) hrest

end sudoku_solver

open uint128 sudoku_constants sudoku_solver

namespace sudoku_solver

theorem count_content_eq_81 (s : State) (h : count_content s = 81) :
    ∀ c, c < 81 → s.contents c ≠ 0 := by
  unfold count_content at h
  have hl : (List.range (Nine * Nine)).length = 81 := List.length_range 81
  rw [← hl, List.filter_length_eq_length] at h
  intro c hc
  have := h c (List.mem_range.2 hc)
  simp only [gt_iff_lt, decide_eq_true_eq] at this
  omega

theorem C1_aux (puzzle : List Nat) (grid : Nat → Nat) (s0 : State)
    (hlen : puzzle.length = 81)
    (hsym : ∀ ch ∈ puzzle, (49 ≤ ch ∧ ch ≤ 57) ∨ ¬ (48 ≤ ch ∧ ch ≤ 57))
    (hvalid : ValidGrid grid)
    (hagree : ∀ c, c < 81 → 49 ≤ puzzle.getD c 0 → puzzle.getD c 0 ≤ 57 →
      grid c = puzzle.getD c 0 - 48) :
    Consistent grid (load (puzzle.take 81) 0 (reset s0)) := by
  apply Consistent_load grid hvalid _ _ _ (Consistent_reset grid hvalid s0)
  · rw [List.length_take]; omega
  · intro i ch h1 h2 h3
    rw [Nat.zero_add]
    have htake : puzzle.take 81 = puzzle := List.take_of_length_le (by omega)
    rw [htake] at h1
    have hmem : ch ∈ puzzle := List.get?_mem h1
    have hi : i < puzzle.length := by
      rcases Nat.lt_or_ge i puzzle.length with h | h
      · exact h
      · rw [List.get?_eq_none.2 h] at h1; cases h1
    have hget : puzzle.getD i 0 = ch := by
      rw [List.getD_eq_getElem _ _ hi]
      rw [List.get?_eq_get hi] at h1
      injection h1
    rcases hsym ch hmem with h | h
    · have := hagree i (by omega) (by rw [hget]; exact h.1) (by rw [hget]; exact h.2)
      rw [this, hget]
    · exact absurd ⟨h2, h3⟩ h

end sudoku_solver

open uint128 sudoku_constants sudoku_solver

namespace sudoku_solver

theorem Res.eq_ok_of_value {α : Type} (r : Res α) (a : α) (s : State)
    (h : r.value? = some a) : r = .ok a (r.stateD s) := by
  cases r with
  | ok b s1 => simp only [Res.value?, Option.some.injEq] at h; rw [h]; rfl
  | panic p s1 => cases h
  | fuel => cases h

/-- C1 (soundness of the engine): for every 81-symbol puzzle whose givens are
the characters `'1'..'9'` and whose blanks are non-digit characters, and for
every complete valid grid that agrees with the givens, `Start_solver` returns
normally and every cell it leaves fixed holds the digit of that grid; when it
returns 81 the content grid equals that grid. -/
theorem C1_soundness (puzzle : List Nat) (grid : Nat → Nat) (s0 : State)
    (hlen : puzzle.length = 81)
    (hsym : ∀ ch ∈ puzzle, (49 ≤ ch ∧ ch ≤ 57) ∨ ¬ (48 ≤ ch ∧ ch ≤ 57))
    (hvalid : ValidGrid grid)
    (hagree : ∀ c, c < 81 → 49 ≤ puzzle.getD c 0 → puzzle.getD c 0 ≤ 57 →
      grid c = puzzle.getD c 0 - 48) :
    ∃ n s, Start_solver puzzle s0 = .ok n s ∧
      (∀ c, c < 81 → s.contents c ≠ 0 → s.contents c = grid c) ∧
      (n = 81 → ∀ c, c < 81 → s.contents c = grid c) := by
  have hcons := C1_aux puzzle grid s0 hlen hsym hvalid hagree
  obtain ⟨s1, hsteps, hres⟩ := Start_solver_outcome puzzle s0 (by omega)
  have hc1 : Consistent grid s1 :=
    (Steps_preserve (Consistent grid)
      (fun s s2 _ hp hstep => Consistent_Step grid hvalid s s2 hp hstep) _ _ hsteps
      (loaded_Inv puzzle s0) hcons).2
  rcases hres with ⟨hst, _⟩ | ⟨h, _⟩
  · exact absurd hst (Consistent_not_Stuck grid hvalid s1 hc1)
  · refine ⟨count_content s1, s1, h, hc1.2, ?_⟩
    intro h81 c hc
    exact hc1.2 c hc (count_content_eq_81 s1 h81 c hc)

set_option maxRecDepth 100000 in
/-- C1 at `puzzle_easy` and its solution `grid_easy`. -/
theorem C1_soundness_witness :
    (puzzle_easy.length = 81 ∧
      (∀ ch ∈ puzzle_easy, (49 ≤ ch ∧ ch ≤ 57) ∨ ¬ (48 ≤ ch ∧ ch ≤ 57)) ∧
      ValidGrid grid_easy ∧
      (∀ c, c < 81 → 49 ≤ puzzle_easy.getD c 0 → puzzle_easy.getD c 0 ≤ 57 →
        grid_easy c = puzzle_easy.getD c 0 - 48)) ∧
    ∃ n s, Start_solver puzzle_easy State.initial = .ok n s ∧
      (∀ c, c < 81 → s.contents c ≠ 0 → s.contents c = grid_easy c) ∧
      (n = 81 → ∀ c, c < 81 → s.contents c = grid_easy c) :=
  ⟨⟨by decide!, by decide!, by decide!, by decide!⟩,
    C1_soundness puzzle_easy grid_easy State.initial (by decide!) (by decide!) (by decide!)
      (by decide!)⟩

end sudoku_solver
